import Mathlib

/-!
# Verification of the crossword CSP solver (`generate.py`)

A shallow embedding of `CrosswordCreator` from `src/crossword/generate.py`.

* Pure helpers (`enforce_node_consistency`, `revise`, `ac3`, `consistent`,
  `assignment_complete`, `order_domain_values`, `select_unassigned_variable`)
  are translated as functions on explicit domain stores and assignments.
* `backtrack` mutates `self.domains` through Python object references
  (`domains_copy = copy.deepcopy(self.domains)` followed by
  `self.domains = domains_copy` rebinds the attribute to the snapshot object,
  which later iterations then mutate in place).  To capture these reference
  semantics faithfully the embedding threads a heap of domain stores
  (`List Domains`) together with the index the attribute currently points to.
* Python `set` iteration order is not specified; the embedding fixes it as the
  underlying list order (insertion order of the word list / variable list).
* Recursion is modelled with fuel; running out of fuel yields `none`, which is
  distinguishable from the program's `None` result (`some none`).
-/

namespace CrosswordCSP

/-- A grid coordinate (row, column). -/
abbrev Cell := Nat × Nat

/-- Modelled from the spec: a `Variable` (from the missing `crossword.py`
module) identifies one word slot via "an ordered sequence of grid cell
coordinates of size `length` (cell `k` is the `k`-th letter position)".
The starting row/column and direction are used only by the out-of-scope
rendering code, so only the cell sequence is kept; `length` is the size of
that sequence. -/
structure Variable where
  cells : List Cell
deriving DecidableEq, Repr

/-- The declared length of a slot: the size of its cell sequence. -/
def Variable.length (v : Variable) : Nat := v.cells.length

/-- A candidate word.  Strings are modelled as lists of characters so that
`word[i]` is `List.get?`. -/
abbrev Word := List Char

/-- Modelled from the spec: the puzzle model supplies the set of variables
(`variables()`); it is kept as a list fixing one iteration order. -/
structure Puzzle where
  vars : List Variable
deriving DecidableEq, Repr

/-- The cells shared by two slots, in the order of `x`'s cell sequence
(Python: `set(x.cells) & set(y.cells)`). -/
def sharedCells (x y : Variable) : List Cell :=
  x.cells.filter (fun c => decide (c ∈ y.cells))

/-- Modelled from the spec: `neighbors(v)` of the puzzle model — "two
variables are neighbors iff their cell sequences share at least one
coordinate", symmetric and without self-neighbors. -/
def Puzzle.neighbors (p : Puzzle) (v : Variable) : List Variable :=
  p.vars.filter (fun w => decide (w ≠ v) && decide (sharedCells v w ≠ []))

/-- The index of the first occurrence of a cell in a cell sequence
(Python: `list.index`; the cell is always a member where this is used). -/
def cellIndex : List Cell → Cell → Nat
  | [], _ => 0
  | c :: cs, t => if c = t then 0 else cellIndex cs t + 1

/-- `word_x[index_x] == word_y[index_y]` (Python raises `IndexError` on an
out-of-range index; the embedding compares the optional lookups instead,
which agrees with the source whenever the indices are in range). -/
def agreeAt (ix iy : Nat) (wx wy : Word) : Bool :=
  decide (wx.get? ix = wy.get? iy)

/-- The domain store `self.domains`: one candidate-word list per variable. -/
abbrev Domains := List (Variable × List Word)

/-- `self.domains[v]` (empty for a missing key; the keys never change). -/
def domGet (d : Domains) (v : Variable) : List Word :=
  match d.find? (fun e => decide (e.1 = v)) with
  | some e => e.2
  | none => []

/-- `self.domains[v] = ws`: update the (first) entry for `v`. -/
def domSet : Domains → Variable → List Word → Domains
  | [], _, _ => []
  | e :: rest, v, ws => if e.1 = v then (v, ws) :: rest else e :: domSet rest v ws

/-- The key list of the store (`self.domains.keys()`). -/
def domKeys (d : Domains) : List Variable := d.map Prod.fst

/-- Remove the first occurrence of a word (`set.remove` on the domain). -/
def eraseW : List Word → Word → List Word
  | [], _ => []
  | w :: ws, t => if w = t then ws else w :: eraseW ws t

/-- Remove the first occurrence of a variable (`set.remove`). -/
def eraseV : List Variable → Variable → List Variable
  | [], _ => []
  | w :: ws, t => if w = t then ws else w :: eraseV ws t

/-- `CrosswordCreator.enforce_node_consistency`: keep in each domain exactly
the words whose length equals the variable's length. -/
def enforce_node_consistency (d : Domains) : Domains :=
  d.map (fun e => (e.1, e.2.filter (fun w => decide (w.length = e.1.length))))

/-- Does some word of `dy` agree with `wx` at the overlap indices
(the `correct_overlap` list comprehension in `revise` is non-empty)? -/
def supportedOn (ix iy : Nat) (dy : List Word) (wx : Word) : Bool :=
  dy.any (fun wy => agreeAt ix iy wx wy)

/-- The loop of `CrosswordCreator.revise`: iterate over a snapshot of
`domains[x]`, removing each word with no partner in the current `domains[y]`. -/
def reviseGo (x y : Variable) (ix iy : Nat) : List Word → Bool × Domains → Bool × Domains
  | [], acc => acc
  | wx :: rest, acc =>
    if supportedOn ix iy (domGet acc.2 y) wx then
      reviseGo x y ix iy rest acc
    else
      reviseGo x y ix iy rest (true, domSet acc.2 x (eraseW (domGet acc.2 x) wx))

/-- `CrosswordCreator.revise`: no shared cell means no change and `False`;
otherwise prune `domains[x]` against `domains[y]` at the first shared cell. -/
def revise (d : Domains) (x y : Variable) : Bool × Domains :=
  match sharedCells x y with
  | [] => (false, d)
  | c :: _ => reviseGo x y (cellIndex x.cells c) (cellIndex y.cells c) (domGet d x) (false, d)

/-- Re-enqueue arcs `(z, x)` (for-loop with `if (var, x) not in arcs` checked
against the list as it grows). -/
def enqueueArcs (x : Variable) (zs : List Variable) (arcs : List (Variable × Variable)) :
    List (Variable × Variable) :=
  zs.foldl (fun acc z => if (z, x) ∈ acc then acc else acc ++ [(z, x)]) arcs

/-- The work-queue loop of `CrosswordCreator.ac3`, with fuel (`none` = fuel
ran out; the loop itself always terminates, see `ac3Fuel_isSome`). -/
def ac3Fuel (p : Puzzle) : Nat → Domains → List (Variable × Variable) → Option (Bool × Domains)
  | 0, _, _ => none
  | fuel + 1, d, arcs =>
    match arcs with
    | [] => some (true, d)
    | (x, y) :: rest =>
      let rd := revise d x y
      if rd.1 then
        if domGet rd.2 x = [] then some (false, rd.2)
        else ac3Fuel p fuel rd.2 (enqueueArcs x (eraseV (p.neighbors x) y) rest)
      else ac3Fuel p fuel rd.2 rest

/-- The total number of candidate words in the store (termination measure). -/
def domSize (d : Domains) : Nat := (d.map (fun e => e.2.length)).sum

/-- Fuel that always suffices for `ac3Fuel` (proved in `ac3Fuel_isSome`). -/
def ac3Bound (p : Puzzle) (d : Domains) (arcs : List (Variable × Variable)) : Nat :=
  (p.vars.length + 1) * domSize d + arcs.length + 1

/-- `CrosswordCreator.ac3` with an explicit initial arc list.  The `getD`
default is unreachable because `ac3Bound` fuel suffices. -/
def ac3Run (p : Puzzle) (d : Domains) (arcs : List (Variable × Variable)) : Bool × Domains :=
  (ac3Fuel p (ac3Bound p d arcs) d arcs).getD (true, d)

/-- The `arcs == None` initialisation of `ac3`: all `(var, neighbor)` pairs,
deduplicated (`list(set(arcs))`, the set's order fixed as first occurrence). -/
def allArcs (p : Puzzle) (d : Domains) : List (Variable × Variable) :=
  ((domKeys d).foldl (fun acc v => acc ++ (p.neighbors v).map (fun x => (v, x))) []).dedup

/-- `CrosswordCreator.ac3` called with `arcs=None`. -/
def ac3Full (p : Puzzle) (d : Domains) : Bool × Domains :=
  ac3Run p d (allArcs p d)

/-- The (partial) assignment: a word per assigned variable, in insertion
order like a Python dict. -/
abbrev Assignment := List (Variable × Word)

/-- `assignment[v]`, if assigned. -/
def aGet (a : Assignment) (v : Variable) : Option Word :=
  match a.find? (fun e => decide (e.1 = v)) with
  | some e => some e.2
  | none => none

/-- `assignment[v] = w`: replace the binding or append a new one (dict
insertion order). -/
def aSet : Assignment → Variable → Word → Assignment
  | [], v, w => [(v, w)]
  | e :: rest, v, w => if e.1 = v then (v, w) :: rest else e :: aSet rest v w

/-- `del assignment[v]`. -/
def aDel (a : Assignment) (v : Variable) : Assignment :=
  a.filter (fun e => decide (e.1 ≠ v))

/-- `CrosswordCreator.assignment_complete`: every key of `self.domains` is
assigned. -/
def assignment_complete (d : Domains) (a : Assignment) : Bool :=
  (domKeys d).all (fun v => (aGet a v).isSome)

/-- The per-neighbor overlap check inside `CrosswordCreator.consistent`
(first shared cell; genuine neighbors always share one). -/
def nbrOverlapOK (x : Variable) (wx : Word) (n : Variable) (wn : Word) : Bool :=
  match sharedCells x n with
  | [] => true
  | c :: _ => agreeAt (cellIndex x.cells c) (cellIndex n.cells c) wx wn

/-- `CrosswordCreator.consistent`: lengths match, every assigned word occurs
exactly once among the values, and assigned neighbors agree at their overlap. -/
def consistentB (p : Puzzle) (a : Assignment) : Bool :=
  a.all (fun e =>
    decide (e.2.length = e.1.length) &&
    decide ((a.map Prod.snd).count e.2 = 1) &&
    (p.neighbors e.1).all (fun n =>
      match aGet a n with
      | none => true
      | some wn => nbrOverlapOK e.1 e.2 n wn))

/-- Stable insertion into a sorted list: a new element goes after the
elements `le`-below-or-equal to it (Python `sorted` is stable). -/
def insertBy (le : α → α → Bool) (x : α) : List α → List α
  | [] => [x]
  | y :: ys => if le y x then y :: insertBy le x ys else x :: y :: ys

/-- Stable sort: insert the elements left to right. -/
def sortBy (le : α → α → Bool) (l : List α) : List α :=
  l.foldl (fun acc x => insertBy le x acc) []

/-- How many neighbor candidates the word `w` for `var` would rule out
(the `constraints_dict` computation in `order_domain_values`). -/
def ruledOut (p : Puzzle) (d : Domains) (a : Assignment) (var : Variable) (w : Word) : Nat :=
  (p.neighbors var).foldl (fun acc n =>
    match aGet a n with
    | some _ => acc
    | none =>
      match sharedCells var n with
      | [] => acc
      | c :: _ =>
        acc + ((domGet d n).filter
          (fun wn => !(agreeAt (cellIndex var.cells c) (cellIndex n.cells c) w wn))).length) 0

/-- `CrosswordCreator.order_domain_values`: domain words sorted (stably) by
how many neighbor candidates they rule out, ascending. -/
def order_domain_values (p : Puzzle) (d : Domains) (a : Assignment) (var : Variable) : List Word :=
  sortBy (fun w1 w2 => decide (ruledOut p d a var w1 ≤ ruledOut p d a var w2)) (domGet d var)

/-- The sort key of `select_unassigned_variable`:
`(len(self.domains[x]), -len(neighbors(x)))`, compared lexicographically. -/
def selectLe (p : Puzzle) (d : Domains) (x y : Variable) : Bool :=
  decide ((domGet d x).length < (domGet d y).length) ||
    (decide ((domGet d x).length = (domGet d y).length) &&
      decide ((p.neighbors y).length ≤ (p.neighbors x).length))

/-- `CrosswordCreator.select_unassigned_variable`: minimum remaining values,
ties broken by maximum degree, then by key order (`none` only if all
variables are assigned, where Python would index an empty list). -/
def select_unassigned_variable (p : Puzzle) (d : Domains) (a : Assignment) : Option Variable :=
  (sortBy (selectLe p d) ((domKeys d).filter (fun v => (aGet a v).isNone))).head?

/-- The mutable solver state: the heap of domain-store objects ever
allocated (deep copies included), the index `self.domains` currently refers
to, and the assignment dict. -/
structure BState where
  heap : List Domains
  cur : Nat
  assign : Assignment
deriving DecidableEq, Repr

/-- Read a heap slot. -/
def heapGet : List Domains → Nat → Domains
  | [], _ => []
  | d :: _, 0 => d
  | _ :: hs, n + 1 => heapGet hs n

/-- Overwrite a heap slot. -/
def heapSet : List Domains → Nat → Domains → List Domains
  | [], _, _ => []
  | _ :: hs, 0, d => d :: hs
  | h :: hs, n + 1, d => h :: heapSet hs n d

/-- The store `self.domains` currently points to. -/
def curDom (s : BState) : Domains := heapGet s.heap s.cur

/-- Mutate the store `self.domains` points to. -/
def writeCur (s : BState) (d : Domains) : BState :=
  { s with heap := heapSet s.heap s.cur d }

/-- The `for val in self.order_domain_values(...)` loop of `backtrack`.
`bt` is the recursive call, `copyIdx` the heap slot of `domains_copy`;
`self.domains = domains_copy` is `cur := copyIdx` (a reference rebind, not a
copy).  `if (result := ...) and self.ac3(...)` runs `ac3` only when the
recursive result is a non-empty dict. -/
def tryValsAux (p : Puzzle) (bt : BState → Option (Option Assignment × BState))
    (var : Variable) (copyIdx : Nat) :
    List Word → BState → Option (Option Assignment × BState)
  | [], s => some (none, s)
  | val :: rest, s =>
    let a1 := aSet s.assign var val
    if consistentB p a1 then
      let s1 := writeCur { s with assign := a1 } (domSet (curDom s) var [val])
      match bt s1 with
      | none => none
      | some (some result, s2) =>
        if result = [] then
          tryValsAux p bt var copyIdx rest { s2 with assign := aDel s2.assign var, cur := copyIdx }
        else
          let ra := ac3Run p (curDom s2) ((p.neighbors var).map (fun o => (o, var)))
          let s3 := writeCur s2 ra.2
          if ra.1 then some (some result, s3)
          else tryValsAux p bt var copyIdx rest { s3 with assign := aDel s3.assign var, cur := copyIdx }
      | some (none, s2) =>
        tryValsAux p bt var copyIdx rest { s2 with assign := aDel s2.assign var, cur := copyIdx }
    else
      tryValsAux p bt var copyIdx rest { s with assign := aDel a1 var, cur := copyIdx }

/-- `CrosswordCreator.backtrack` with fuel (`none` = fuel ran out; the
recursion depth is bounded by the number of variables, so enough fuel always
exists).  `domains_copy = copy.deepcopy(self.domains)` allocates a fresh
heap slot holding a copy of the current store. -/
def backtrack (p : Puzzle) : Nat → BState → Option (Option Assignment × BState)
  | 0, _ => none
  | fuel + 1, s =>
    if assignment_complete (curDom s) s.assign then some (some s.assign, s)
    else
      match select_unassigned_variable p (curDom s) s.assign with
      | none => some (none, s)
      | some var =>
        let vals := order_domain_values p (curDom s) s.assign var
        tryValsAux p (backtrack p fuel) var s.heap.length vals
          { s with heap := s.heap ++ [curDom s] }

/-- Run `backtrack` from a given store and assignment (fresh heap). -/
def backtrackEntry (p : Puzzle) (d : Domains) (a : Assignment) (fuel : Nat) :
    Option (Option Assignment × BState) :=
  backtrack p fuel { heap := [d], cur := 0, assign := a }

/-- `CrosswordCreator.__init__`: every variable starts with the full word
list as domain. -/
def initDomains (p : Puzzle) (dict : List Word) : Domains :=
  p.vars.map (fun v => (v, dict))

/-- `CrosswordCreator.solve`: node consistency, a full `ac3` pass (its
boolean result is ignored by the source), then `backtrack(dict())`.
`some none` is the program's "no solution"; bare `none` is fuel exhaustion. -/
def solve (p : Puzzle) (dict : List Word) (fuel : Nat) : Option (Option Assignment) :=
  let d1 := enforce_node_consistency (initDomains p dict)
  let d2 := (ac3Full p d1).2
  (backtrackEntry p d2 [] fuel).map Prod.fst

/-- Valid-puzzle invariant from the spec: the variable list has no
duplicates and "at most one shared coordinate is expected per neighbor pair". -/
def UniqueOverlaps (p : Puzzle) : Prop :=
  ∀ x ∈ p.vars, ∀ y ∈ p.vars, x ≠ y → (sharedCells x y).length ≤ 1

/-- The valid-puzzle hypothesis bundle. -/
def ValidPuzzle (p : Puzzle) : Prop :=
  p.vars.Nodup ∧ UniqueOverlaps p

instance (p : Puzzle) : Decidable (UniqueOverlaps p) := by
  unfold UniqueOverlaps; infer_instance

instance (p : Puzzle) : Decidable (ValidPuzzle p) := by
  unfold ValidPuzzle; infer_instance

instance : DecidableEq Word := inferInstance

instance : DecidableEq Domains := inferInstance

instance : DecidableEq Assignment := inferInstance

instance : DecidableEq (Option Assignment) := inferInstance

instance : DecidableEq (Option Assignment × Domains) := inferInstance

instance : DecidableEq (Option (Option Assignment × Domains)) := inferInstance

instance : DecidableEq (Option Assignment × BState) := inferInstance

instance : DecidableEq (Option (Option Assignment × BState)) := inferInstance

instance : DecidableEq (Option (Option Assignment)) := inferInstance

/-! ## Basic lemmas about the store and assignment operations -/

theorem domKeys_cons (e : Variable × List Word) (d : Domains) :
    domKeys (e :: d) = e.1 :: domKeys d := rfl

theorem domKeys_domSet (d : Domains) (x : Variable) (ws : List Word) :
    domKeys (domSet d x ws) = domKeys d := by
  induction d with
  | nil => rfl
  | cons e rest ih =>
    by_cases h : e.1 = x
    · simp [domSet, domKeys, h]
    · simp only [domSet, if_neg h, domKeys_cons]
      rw [show domKeys (domSet rest x ws) = domKeys rest from ih]

theorem domGet_domSet_ne (d : Domains) (x : Variable) (ws : List Word) (v : Variable)
    (hv : v ≠ x) : domGet (domSet d x ws) v = domGet d v := by
  induction d with
  | nil => rfl
  | cons e rest ih =>
    by_cases h : e.1 = x
    · simp only [domSet, if_pos h, domGet, List.find?]
      have h1 : (decide (x = v)) = false := by simp [Ne.symm hv]
      have h2 : (decide (e.1 = v)) = false := by simp [h, Ne.symm hv]
      simp [h1, h2]
    · simp only [domSet, if_neg h, domGet, List.find?]
      by_cases h2 : e.1 = v
      · simp [h2]
      · simpa [h2, domGet] using ih

theorem domGet_domSet_self (d : Domains) (x : Variable) (ws : List Word)
    (hx : x ∈ domKeys d) : domGet (domSet d x ws) x = ws := by
  induction d with
  | nil => simp [domKeys] at hx
  | cons e rest ih =>
    by_cases h : e.1 = x
    · simp [domSet, h, domGet, List.find?]
    · have hx' : x ∈ domKeys rest := by
        simp [domKeys] at hx
        rcases hx with h1 | h1
        · exact absurd h1.symm h
        · simpa [domKeys] using h1
      simp only [domSet, if_neg h, domGet, List.find?]
      have h2 : (decide (e.1 = x)) = false := by simp [h]
      simpa [h2, domGet] using ih hx'

theorem domGet_domSet_not_mem (d : Domains) (x : Variable) (ws : List Word)
    (hx : x ∉ domKeys d) : domSet d x ws = d := by
  induction d with
  | nil => rfl
  | cons e rest ih =>
    rw [domKeys_cons, List.mem_cons] at hx
    push_neg at hx
    have h1 : e.1 ≠ x := fun h => hx.1 h.symm
    simp [domSet, h1, ih hx.2]

theorem aGet_eq_none_iff (a : Assignment) (v : Variable) :
    aGet a v = none ↔ ∀ e ∈ a, e.1 ≠ v := by
  induction a with
  | nil => simp [aGet]
  | cons e rest ih =>
    by_cases h : e.1 = v
    · simp [aGet, List.find?, h]
    · simp only [aGet, List.find?] at ih ⊢
      have hd : (decide (e.1 = v)) = false := by simp [h]
      simp [hd, ih, h]

theorem aGet_mem {a : Assignment} {v : Variable} {w : Word} (h : aGet a v = some w) :
    (v, w) ∈ a := by
  induction a with
  | nil => simp [aGet] at h
  | cons e rest ih =>
    by_cases he : e.1 = v
    · have hd : (decide (e.1 = v)) = true := by simp [he]
      simp only [aGet, List.find?, hd] at h
      have h2 : e.2 = w := by simpa using h
      have h3 : e = (v, w) := by
        cases e
        simp_all
      rw [h3]
      exact List.mem_cons_self _ _
    · simp only [aGet, List.find?] at h
      have hd : (decide (e.1 = v)) = false := by simp [he]
      rw [hd] at h
      exact List.mem_cons_of_mem _ (ih (by simpa [aGet] using h))

theorem mem_aGet {a : Assignment} {v : Variable} {w : Word}
    (hnd : (a.map Prod.fst).Nodup) (h : (v, w) ∈ a) : aGet a v = some w := by
  induction a with
  | nil => simp at h
  | cons e rest ih =>
    simp only [List.map_cons, List.nodup_cons] at hnd
    rcases List.mem_cons.mp h with h1 | h1
    · subst h1
      simp [aGet, List.find?]
    · have hne : e.1 ≠ v := by
        intro hv
        exact hnd.1 (by simpa [hv] using List.mem_map_of_mem Prod.fst h1)
      have hd : (decide (e.1 = v)) = false := by simp [hne]
      simp only [aGet, List.find?, hd]
      simpa [aGet] using ih hnd.2 h1

theorem aSet_eq_append {a : Assignment} {v : Variable} (w : Word)
    (h : aGet a v = none) : aSet a v w = a ++ [(v, w)] := by
  induction a with
  | nil => rfl
  | cons e rest ih =>
    have hne := (aGet_eq_none_iff _ _).mp h e (by simp)
    have hr : aGet rest v = none := by
      rw [aGet_eq_none_iff]
      intro e' he'
      exact (aGet_eq_none_iff _ _).mp h e' (by simp [he'])
    simp [aSet, hne, ih hr]

theorem aDel_of_not_mem {a : Assignment} {v : Variable} (h : aGet a v = none) :
    aDel a v = a := by
  rw [aDel, List.filter_eq_self]
  intro e he
  simpa using (aGet_eq_none_iff _ _).mp h e he

theorem aDel_aSet {a : Assignment} {v : Variable} (w : Word) (h : aGet a v = none) :
    aDel (aSet a v w) v = a := by
  rw [aSet_eq_append w h, aDel, List.filter_append]
  have h1 : List.filter (fun e => decide (e.1 ≠ v)) a = a := by
    rw [List.filter_eq_self]
    intro e he
    simpa using (aGet_eq_none_iff _ _).mp h e he
  rw [h1]
  simp

theorem aGet_aSet_self (a : Assignment) (v : Variable) (w : Word) :
    aGet (aSet a v w) v = some w := by
  induction a with
  | nil => simp [aSet, aGet, List.find?]
  | cons e rest ih =>
    by_cases h : e.1 = v
    · simp [aSet, h, aGet, List.find?]
    · have hd : (decide (e.1 = v)) = false := by simp [h]
      simp only [aSet, if_neg h, aGet, List.find?, hd]
      simpa [aGet] using ih

theorem aGet_aSet_ne (a : Assignment) (v u : Variable) (w : Word) (h : u ≠ v) :
    aGet (aSet a v w) u = aGet a u := by
  induction a with
  | nil => simp [aSet, aGet, List.find?, Ne.symm h]
  | cons e rest ih =>
    by_cases he : e.1 = v
    · have hd : (decide (v = u)) = false := by simp [Ne.symm h]
      have hd2 : (decide (e.1 = u)) = false := by simp [he, Ne.symm h]
      simp [aSet, he, aGet, List.find?, hd, hd2]
    · simp only [aSet, if_neg he, aGet, List.find?]
      by_cases h2 : e.1 = u
      · simp [h2]
      · have hd : (decide (e.1 = u)) = false := by simp [h2]
        simp only [hd]
        simpa [aGet] using ih

theorem heapSet_length (hs : List Domains) (i : Nat) (d : Domains) :
    (heapSet hs i d).length = hs.length := by
  induction hs generalizing i with
  | nil => rfl
  | cons h rest ih =>
    cases i with
    | zero => rfl
    | succ n => simp [heapSet, ih]

theorem heapGet_heapSet_self (hs : List Domains) (i : Nat) (d : Domains)
    (h : i < hs.length) : heapGet (heapSet hs i d) i = d := by
  induction hs generalizing i with
  | nil => simp at h
  | cons e rest ih =>
    cases i with
    | zero => rfl
    | succ n => exact ih n (by simpa using h)

theorem heapGet_heapSet_ne (hs : List Domains) (i j : Nat) (d : Domains)
    (h : j ≠ i) : heapGet (heapSet hs i d) j = heapGet hs j := by
  induction hs generalizing i j with
  | nil => rfl
  | cons e rest ih =>
    cases i with
    | zero =>
      cases j with
      | zero => exact absurd rfl h
      | succ m => rfl
    | succ n =>
      cases j with
      | zero => rfl
      | succ m => exact ih n m (by omega)

theorem heapGet_append_lt (hs l : List Domains) (i : Nat) (h : i < hs.length) :
    heapGet (hs ++ l) i = heapGet hs i := by
  induction hs generalizing i with
  | nil => simp at h
  | cons e rest ih =>
    cases i with
    | zero => rfl
    | succ n => exact ih n (by simpa using h)

theorem heapGet_append_self (hs : List Domains) (d : Domains) :
    heapGet (hs ++ [d]) hs.length = d := by
  induction hs with
  | nil => rfl
  | cons e rest ih => simpa [heapGet] using ih

/-! ## Node consistency (claims C7, C8) -/

theorem domGet_enforce (d : Domains) (v : Variable) :
    domGet (enforce_node_consistency d) v
      = (domGet d v).filter (fun w => decide (w.length = v.length)) := by
  induction d with
  | nil => rfl
  | cons e rest ih =>
    by_cases h : e.1 = v
    · have hd : (decide (e.1 = v)) = true := by simp [h]
      simp only [enforce_node_consistency, List.map_cons, domGet, List.find?, hd]
      simp [h]
    · have hd : (decide (e.1 = v)) = false := by simp [h]
      simp only [enforce_node_consistency, List.map_cons, domGet, List.find?, hd]
      simpa [enforce_node_consistency, domGet] using ih

/-- C7: after `enforce_node_consistency`, the domain of every variable is
exactly the original domain with the words of the wrong length removed: every
surviving word has the variable's length, and precisely the words whose
length differs are gone.  The operation is a total function (it never
fails). -/
theorem c7_node_consistency (d : Domains) (v : Variable) :
    domGet (enforce_node_consistency d) v
        = (domGet d v).filter (fun w => decide (w.length = v.length)) ∧
      ∀ w ∈ domGet (enforce_node_consistency d) v, w.length = v.length := by
  refine ⟨domGet_enforce d v, ?_⟩
  intro w hw
  rw [domGet_enforce d v] at hw
  simpa using (List.mem_filter.mp hw).2

/-- C7 witness: a concrete store with a wrong-length word. -/
theorem c7_node_consistency_witness :
    domGet (enforce_node_consistency [(⟨[(0,0),(0,1)]⟩, [['a','b'], ['c']])] ) ⟨[(0,0),(0,1)]⟩
        = ((domGet [(⟨[(0,0),(0,1)]⟩, [['a','b'], ['c']])] ⟨[(0,0),(0,1)]⟩).filter
            (fun w => decide (w.length = (Variable.mk [(0,0),(0,1)]).length))) ∧
      ∀ w ∈ domGet (enforce_node_consistency [(⟨[(0,0),(0,1)]⟩, [['a','b'], ['c']])] )
          ⟨[(0,0),(0,1)]⟩, w.length = (Variable.mk [(0,0),(0,1)]).length :=
  c7_node_consistency [(⟨[(0,0),(0,1)]⟩, [['a','b'], ['c']])] ⟨[(0,0),(0,1)]⟩

/-- C8: `enforce_node_consistency` is idempotent — applying it twice yields
the same store as applying it once, and a store that is already node
consistent is left unchanged. -/
theorem c8_node_consistency_idempotent (d : Domains) :
    enforce_node_consistency (enforce_node_consistency d) = enforce_node_consistency d ∧
      ((∀ e ∈ d, ∀ w ∈ e.2, w.length = e.1.length) → enforce_node_consistency d = d) := by
  constructor
  · unfold enforce_node_consistency
    rw [List.map_map]
    apply List.map_congr_left
    intro e _
    simp [Function.comp, List.filter_filter]
  · intro h
    unfold enforce_node_consistency
    conv_rhs => rw [show d = d.map id from (List.map_id d).symm]
    apply List.map_congr_left
    intro e he
    have : e.2.filter (fun w => decide (w.length = e.1.length)) = e.2 := by
      rw [List.filter_eq_self]
      intro w hw
      simpa using h e he w hw
    cases e
    simpa using this

/-- C8 witness: an already node-consistent store. -/
theorem c8_node_consistency_idempotent_witness :
    enforce_node_consistency (enforce_node_consistency [(⟨[(0,0),(0,1)]⟩, [['a','b']])])
        = enforce_node_consistency [(⟨[(0,0),(0,1)]⟩, [['a','b']])] ∧
      ((∀ e ∈ [((⟨[(0,0),(0,1)]⟩ : Variable), [['a','b']])], ∀ w ∈ e.2,
          List.length w = e.1.length) →
        enforce_node_consistency [(⟨[(0,0),(0,1)]⟩, [['a','b']])]
          = [(⟨[(0,0),(0,1)]⟩, [['a','b']])]) :=
  c8_node_consistency_idempotent [(⟨[(0,0),(0,1)]⟩, [['a','b']])]

/-! ## `ac3` with an explicitly empty arc list (claim C10) -/

/-- C10: calling `ac3` with an explicitly supplied empty arc list (not the
`None` default) returns `True` and leaves every domain untouched: the
`arcs == None` initialisation is skipped and the while-loop never runs. -/
theorem c10_ac3_empty_arcs (p : Puzzle) (d : Domains) : ac3Run p d [] = (true, d) := by
  rfl

/-! ## Termination of the `ac3` work-queue loop (claim C6) -/

theorem eraseV_length_le (l : List Variable) (v : Variable) :
    (eraseV l v).length ≤ l.length := by
  induction l with
  | nil => simp [eraseV]
  | cons w ws ih =>
    by_cases h : w = v
    · simp only [eraseV, if_pos h, List.length_cons]
      omega
    · simp only [eraseV, if_neg h, List.length_cons]
      omega

theorem enqueueArcs_length_le (x : Variable) (zs : List Variable)
    (arcs : List (Variable × Variable)) :
    (enqueueArcs x zs arcs).length ≤ arcs.length + zs.length := by
  induction zs generalizing arcs with
  | nil => simp [enqueueArcs]
  | cons z zs ih =>
    rw [enqueueArcs, List.foldl_cons]
    simp only [List.length_cons]
    by_cases h : (z, x) ∈ arcs
    · rw [if_pos h]
      have := ih arcs
      rw [enqueueArcs] at this
      omega
    · rw [if_neg h]
      have := ih (arcs ++ [(z, x)])
      rw [enqueueArcs] at this
      simp only [List.length_append, List.length_cons, List.length_nil] at this
      omega

/-! ## Characterisation of `revise` (claim C5) -/

/-- The support predicate of `revise`: does some word of `domains[y]` agree
with `wx` at the indices of the first shared cell (trivially true when the
variables share no cell)? -/
def reviseKeepB (d : Domains) (x y : Variable) (wx : Word) : Bool :=
  match sharedCells x y with
  | [] => true
  | c :: _ => supportedOn (cellIndex x.cells c) (cellIndex y.cells c) (domGet d y) wx

/-- The sequence of removals `revise` performs on the snapshot list. -/
def pruneAll (K : Word → Bool) : List Word → List Word → List Word
  | [], cur => cur
  | w :: l, cur => if K w then pruneAll K l cur else pruneAll K l (eraseW cur w)

theorem domGet_eq_nil_of_not_mem {d : Domains} {x : Variable} (hx : x ∉ domKeys d) :
    domGet d x = [] := by
  induction d with
  | nil => rfl
  | cons e rest ih =>
    rw [domKeys_cons, List.mem_cons] at hx
    push_neg at hx
    have hne : e.1 ≠ x := fun h => hx.1 h.symm
    have h1 : (decide (e.1 = x)) = false := by simp [hne]
    simp only [domGet, List.find?, h1]
    simpa [domGet] using ih hx.2

theorem domGet_domSet_eraseW (d : Domains) (x : Variable) (w : Word) :
    domGet (domSet d x (eraseW (domGet d x) w)) x = eraseW (domGet d x) w := by
  by_cases hx : x ∈ domKeys d
  · exact domGet_domSet_self _ _ _ hx
  · rw [domGet_domSet_not_mem _ _ _ hx, domGet_eq_nil_of_not_mem hx]
    rfl

theorem eraseW_append_cons (pref l : List Word) (w : Word) (hw : w ∉ pref) :
    eraseW (pref ++ w :: l) w = pref ++ l := by
  induction pref with
  | nil => simp [eraseW]
  | cons q rest ih =>
    rw [List.mem_cons] at hw
    push_neg at hw
    have hq : q ≠ w := fun h => hw.1 h.symm
    simp only [List.cons_append, eraseW, if_neg hq]
    show q :: eraseW (rest ++ w :: l) w = q :: (rest ++ l)
    rw [ih hw.2]

theorem pruneAll_filter (K : Word → Bool) :
    ∀ (l pref : List Word), (∀ w ∈ pref, K w = true) →
      pruneAll K l (pref ++ l) = pref ++ l.filter K := by
  intro l
  induction l with
  | nil => intro pref _; simp [pruneAll]
  | cons w l ih =>
    intro pref hpref
    by_cases hK : K w = true
    · have h1 : pref ++ w :: l = (pref ++ [w]) ++ l := by simp
      have h2 : ∀ u ∈ pref ++ [w], K u = true := by
        intro u hu
        rcases List.mem_append.mp hu with h | h
        · exact hpref u h
        · simp at h; subst h; exact hK
      rw [pruneAll, if_pos hK, h1, ih (pref ++ [w]) h2]
      simp [List.filter_cons, hK]
    · have hw : w ∉ pref := fun h => hK (hpref w h)
      rw [pruneAll, if_neg hK, eraseW_append_cons pref l w hw, ih pref hpref]
      simp [List.filter_cons, hK]

/-- Effect of the `revise` loop when `y ≠ x`: only `x`'s entry changes, the
keys stay put, the final domain of `x` is the fold of removals over the
snapshot, and the flag records whether any word was unsupported. -/
theorem reviseGo_spec (x y : Variable) (hxy : y ≠ x) (ix iy : Nat) :
    ∀ (l : List Word) (b : Bool) (d : Domains),
      (∀ v, v ≠ x → domGet (reviseGo x y ix iy l (b, d)).2 v = domGet d v) ∧
      domKeys (reviseGo x y ix iy l (b, d)).2 = domKeys d ∧
      domGet (reviseGo x y ix iy l (b, d)).2 x
        = pruneAll (supportedOn ix iy (domGet d y)) l (domGet d x) ∧
      (reviseGo x y ix iy l (b, d)).1
        = (b || l.any (fun w => !supportedOn ix iy (domGet d y) w)) := by
  intro l
  induction l with
  | nil => intro b d; simp [reviseGo, pruneAll]
  | cons w l ih =>
    intro b d
    by_cases hK : supportedOn ix iy (domGet d y) w = true
    · simpa [reviseGo, hK, pruneAll] using ih b d
    · have hK' : supportedOn ix iy (domGet d y) w = false := by
        simpa using hK
      set d1 := domSet d x (eraseW (domGet d x) w) with hd1
      have hy : domGet d1 y = domGet d y := domGet_domSet_ne d x _ y hxy
      have hx : domGet d1 x = eraseW (domGet d x) w := domGet_domSet_eraseW d x w
      have hk : domKeys d1 = domKeys d := domKeys_domSet d x _
      obtain ⟨ih1, ih2, ih3, ih4⟩ := ih true d1
      refine ⟨?_, ?_, ?_, ?_⟩
      · intro v hv
        rw [reviseGo, if_neg hK]
        rw [show domGet (reviseGo x y ix iy l (true, d1)).2 v = domGet d1 v from ih1 v hv]
        exact domGet_domSet_ne d x _ v hv
      · rw [reviseGo, if_neg hK, ih2, hk]
      · rw [reviseGo, if_neg hK, ih3, hy, hx, pruneAll, if_neg hK]
      · rw [reviseGo, if_neg hK, ih4, hy]
        simp [List.any_cons, hK']

/-- The loop of `revise (x, x)` touches nothing: every snapshot word agrees
with itself at the shared cell, so the `correct_overlap` list is never
empty. -/
theorem reviseGo_self (x : Variable) (ix : Nat) :
    ∀ (l : List Word) (b : Bool) (d : Domains),
      (∀ w ∈ l, w ∈ domGet d x) → reviseGo x x ix ix l (b, d) = (b, d) := by
  intro l
  induction l with
  | nil => intro b d _; rfl
  | cons w l ih =>
    intro b d hl
    have hw : w ∈ domGet d x := hl w (by simp)
    have hK : supportedOn ix ix (domGet d x) w = true := by
      rw [supportedOn, List.any_eq_true]
      exact ⟨w, hw, by simp [agreeAt]⟩
    rw [reviseGo, if_pos hK]
    exact ih b d (fun u hu => hl u (by simp [hu]))

theorem reviseKeepB_of_nil {d : Domains} {x y : Variable} (hs : sharedCells x y = []) :
    ∀ w, reviseKeepB d x y w = true := by
  intro w
  simp [reviseKeepB, hs]

theorem reviseKeepB_of_cons {d : Domains} {x y : Variable} {c : Cell} {cs : List Cell}
    (hs : sharedCells x y = c :: cs) :
    ∀ w, reviseKeepB d x y w
      = supportedOn (cellIndex x.cells c) (cellIndex y.cells c) (domGet d y) w := by
  intro w
  simp [reviseKeepB, hs]

/-- Full characterisation of `revise` (shared helper; the claim-level
statement is `c5_revise`). -/
theorem revise_spec (d : Domains) (x y : Variable) :
    (sharedCells x y = [] → revise d x y = (false, d)) ∧
    (sharedCells x y ≠ [] →
      domGet (revise d x y).2 x = (domGet d x).filter (reviseKeepB d x y) ∧
      (∀ v, v ≠ x → domGet (revise d x y).2 v = domGet d v) ∧
      ((revise d x y).1 = true ↔ ∃ w ∈ domGet d x, reviseKeepB d x y w = false)) := by
  constructor
  · intro hs
    rw [revise, hs]
  · intro hs
    rcases hc : sharedCells x y with _ | ⟨c, cs⟩
    · exact absurd hc hs
    by_cases hxy : y = x
    · subst hxy
      have hself : revise d y y = (false, d) := by
        rw [revise, hc]
        exact reviseGo_self y _ (domGet d y) false d (fun w hw => hw)
      have hall : ∀ w ∈ domGet d y, reviseKeepB d y y w = true := by
        intro w hw
        rw [reviseKeepB_of_cons hc w, supportedOn, List.any_eq_true]
        exact ⟨w, hw, by simp [agreeAt]⟩
      refine ⟨?_, ?_, ?_⟩
      · rw [hself]
        exact (List.filter_eq_self.mpr hall).symm
      · intro v _
        rw [hself]
      · rw [hself]
        apply iff_of_false (by simp)
        rintro ⟨w, hw, hfalse⟩
        rw [hall w hw] at hfalse
        exact absurd hfalse (by simp)
    · have hrw : revise d x y
          = reviseGo x y (cellIndex x.cells c) (cellIndex y.cells c) (domGet d x) (false, d) := by
        rw [revise, hc]
      obtain ⟨h1, h2, h3, h4⟩ :=
        reviseGo_spec x y hxy (cellIndex x.cells c) (cellIndex y.cells c) (domGet d x) false d
      have hp := pruneAll_filter
        (supportedOn (cellIndex x.cells c) (cellIndex y.cells c) (domGet d y)) (domGet d x) []
        (by simp)
      simp only [List.nil_append] at hp
      refine ⟨?_, ?_, ?_⟩
      · rw [hrw, h3, hp]
        apply List.filter_congr
        intro w hw
        rw [reviseKeepB_of_cons hc w]
      · intro v hv
        rw [hrw]
        exact h1 v hv
      · rw [hrw, h4, Bool.false_or, List.any_eq_true]
        constructor
        · rintro ⟨w, hw, hne⟩
          exact ⟨w, hw, by rw [reviseKeepB_of_cons hc w]; simpa using hne⟩
        · rintro ⟨w, hw, hne⟩
          rw [reviseKeepB_of_cons hc w] at hne
          exact ⟨w, hw, by simpa using hne⟩

/-- C5: if `x` and `y` share no cell, `revise` changes nothing and returns
`False`; otherwise the domain of `x` afterwards is exactly the words that
had an agreeing partner in `domains[y]` at the shared cell, every other
variable's domain is untouched, and the returned flag is `True` iff at least
one word was removed. -/
theorem c5_revise (d : Domains) (x y : Variable) :
    (sharedCells x y = [] → revise d x y = (false, d)) ∧
    (sharedCells x y ≠ [] →
      domGet (revise d x y).2 x = (domGet d x).filter (reviseKeepB d x y) ∧
      (∀ v, v ≠ x → domGet (revise d x y).2 v = domGet d v) ∧
      ((revise d x y).1 = true ↔ ∃ w ∈ domGet d x, reviseKeepB d x y w = false)) :=
  revise_spec d x y

/-- C5 witness: two overlapping length-2 slots; `x`'s word `['b','b']` has no
partner and is removed. -/
theorem c5_revise_witness :
    (sharedCells (Variable.mk [(0,0),(0,1)]) (Variable.mk [(0,0),(1,0)]) = [] →
      revise [(⟨[(0,0),(0,1)]⟩, [['a','b'], ['b','b']]), (⟨[(0,0),(1,0)]⟩, [['a','c']])]
        ⟨[(0,0),(0,1)]⟩ ⟨[(0,0),(1,0)]⟩
        = (false, [(⟨[(0,0),(0,1)]⟩, [['a','b'], ['b','b']]), (⟨[(0,0),(1,0)]⟩, [['a','c']])])) ∧
    (sharedCells (Variable.mk [(0,0),(0,1)]) (Variable.mk [(0,0),(1,0)]) ≠ [] →
      domGet (revise [(⟨[(0,0),(0,1)]⟩, [['a','b'], ['b','b']]), (⟨[(0,0),(1,0)]⟩, [['a','c']])]
            ⟨[(0,0),(0,1)]⟩ ⟨[(0,0),(1,0)]⟩).2 ⟨[(0,0),(0,1)]⟩
          = (domGet [(⟨[(0,0),(0,1)]⟩, [['a','b'], ['b','b']]), (⟨[(0,0),(1,0)]⟩, [['a','c']])]
              ⟨[(0,0),(0,1)]⟩).filter
              (reviseKeepB [(⟨[(0,0),(0,1)]⟩, [['a','b'], ['b','b']]), (⟨[(0,0),(1,0)]⟩, [['a','c']])]
                ⟨[(0,0),(0,1)]⟩ ⟨[(0,0),(1,0)]⟩) ∧
        (∀ v, v ≠ ⟨[(0,0),(0,1)]⟩ →
          domGet (revise [(⟨[(0,0),(0,1)]⟩, [['a','b'], ['b','b']]), (⟨[(0,0),(1,0)]⟩, [['a','c']])]
              ⟨[(0,0),(0,1)]⟩ ⟨[(0,0),(1,0)]⟩).2 v
            = domGet [(⟨[(0,0),(0,1)]⟩, [['a','b'], ['b','b']]), (⟨[(0,0),(1,0)]⟩, [['a','c']])] v) ∧
        ((revise [(⟨[(0,0),(0,1)]⟩, [['a','b'], ['b','b']]), (⟨[(0,0),(1,0)]⟩, [['a','c']])]
            ⟨[(0,0),(0,1)]⟩ ⟨[(0,0),(1,0)]⟩).1 = true ↔
          ∃ w ∈ domGet [(⟨[(0,0),(0,1)]⟩, [['a','b'], ['b','b']]), (⟨[(0,0),(1,0)]⟩, [['a','c']])]
              ⟨[(0,0),(0,1)]⟩,
            reviseKeepB [(⟨[(0,0),(0,1)]⟩, [['a','b'], ['b','b']]), (⟨[(0,0),(1,0)]⟩, [['a','c']])]
              ⟨[(0,0),(0,1)]⟩ ⟨[(0,0),(1,0)]⟩ w = false)) :=
  c5_revise [(⟨[(0,0),(0,1)]⟩, [['a','b'], ['b','b']]), (⟨[(0,0),(1,0)]⟩, [['a','c']])]
    ⟨[(0,0),(0,1)]⟩ ⟨[(0,0),(1,0)]⟩

/-! ## Size bookkeeping for the termination measure -/

theorem domSet_domSet (d : Domains) (x : Variable) (ws1 ws2 : List Word) :
    domSet (domSet d x ws1) x ws2 = domSet d x ws2 := by
  induction d with
  | nil => rfl
  | cons e rest ih =>
    by_cases h : e.1 = x
    · simp [domSet, h]
    · simp [domSet, h, ih]

theorem reviseGo_as_domSet (x y : Variable) (ix iy : Nat) :
    ∀ (l : List Word) (b : Bool) (d : Domains),
      (reviseGo x y ix iy l (b, d)).2 = d ∨
        ∃ ws, (reviseGo x y ix iy l (b, d)).2 = domSet d x ws := by
  intro l
  induction l with
  | nil => intro b d; left; rfl
  | cons w l ih =>
    intro b d
    by_cases hK : supportedOn ix iy (domGet d y) w = true
    · rw [reviseGo, if_pos hK]
      exact ih b d
    · rw [reviseGo, if_neg hK]
      rcases ih true (domSet d x (eraseW (domGet d x) w)) with h | ⟨ws, h⟩
      · exact Or.inr ⟨_, h⟩
      · rw [domSet_domSet] at h
        exact Or.inr ⟨ws, h⟩

theorem reviseGo_flag_mono (x y : Variable) (ix iy : Nat) :
    ∀ (l : List Word) (d : Domains), (reviseGo x y ix iy l (true, d)).1 = true := by
  intro l
  induction l with
  | nil => intro d; rfl
  | cons w l ih =>
    intro d
    by_cases hK : supportedOn ix iy (domGet d y) w = true
    · rw [reviseGo, if_pos hK]; exact ih d
    · rw [reviseGo, if_neg hK]; exact ih _

theorem reviseGo_false_fix (x y : Variable) (ix iy : Nat) :
    ∀ (l : List Word) (d : Domains),
      (reviseGo x y ix iy l (false, d)).1 = false → (reviseGo x y ix iy l (false, d)).2 = d := by
  intro l
  induction l with
  | nil => intro d _; rfl
  | cons w l ih =>
    intro d hf
    by_cases hK : supportedOn ix iy (domGet d y) w = true
    · rw [reviseGo, if_pos hK] at hf ⊢
      exact ih d hf
    · rw [reviseGo, if_neg hK] at hf
      rw [reviseGo_flag_mono] at hf
      exact absurd hf (by simp)

theorem revise_false_fix {d : Domains} {x y : Variable}
    (h : (revise d x y).1 = false) : (revise d x y).2 = d := by
  rcases hc : sharedCells x y with _ | ⟨c, cs⟩
  · rw [revise, hc]
  · rw [revise, hc] at h ⊢
    exact reviseGo_false_fix x y _ _ (domGet d x) d h

theorem domSize_domSet (d : Domains) (x : Variable) (ws : List Word)
    (hx : x ∈ domKeys d) :
    domSize (domSet d x ws) + (domGet d x).length = domSize d + ws.length := by
  induction d with
  | nil => simp [domKeys] at hx
  | cons e rest ih =>
    by_cases h : e.1 = x
    · have hd : (decide (e.1 = x)) = true := by simp [h]
      simp only [domSet, if_pos h, domSize, List.map_cons, List.sum_cons, domGet,
        List.find?, hd]
      omega
    · have hx' : x ∈ domKeys rest := by
        rw [domKeys_cons, List.mem_cons] at hx
        rcases hx with h1 | h1
        · exact absurd h1.symm h
        · exact h1
      have hd : (decide (e.1 = x)) = false := by simp [h]
      have := ih hx'
      simp only [domSize, domGet] at this
      simp only [domSet, if_neg h, domSize, List.map_cons, List.sum_cons, domGet,
        List.find?, hd]
      omega

theorem length_filter_lt {K : Word → Bool} {l : List Word}
    (h : ∃ w ∈ l, K w = false) : (l.filter K).length < l.length := by
  induction l with
  | nil => simp at h
  | cons w l ih =>
    by_cases hK : K w = true
    · rcases h with ⟨u, hu, hKu⟩
      rcases List.mem_cons.mp hu with h1 | h1
      · subst h1; rw [hK] at hKu; exact absurd hKu (by simp)
      · have := ih ⟨u, h1, hKu⟩
        simp [List.filter_cons, hK]
        omega
    · have h1 := List.length_filter_le K l
      have hK' : K w = false := by simpa using hK
      simp [List.filter_cons, hK']
      omega

/-- A successful revision strictly shrinks the total store size. -/
theorem revise_true_domSize_lt {d : Domains} {x y : Variable}
    (h : (revise d x y).1 = true) : domSize (revise d x y).2 < domSize d := by
  rcases hc : sharedCells x y with _ | ⟨c, cs⟩
  · rw [revise, hc] at h
    exact absurd h (by simp)
  · have hs : sharedCells x y ≠ [] := by rw [hc]; simp
    obtain ⟨-, hchar⟩ := revise_spec d x y
    obtain ⟨hdx, -, hflag⟩ := hchar hs
    obtain ⟨w, hw, hKw⟩ := hflag.mp h
    have hlt : ((domGet d x).filter (reviseKeepB d x y)).length < (domGet d x).length :=
      length_filter_lt ⟨w, hw, hKw⟩
    have hxmem : x ∈ domKeys d := by
      by_contra hxn
      rw [domGet_eq_nil_of_not_mem hxn] at hw
      simp at hw
    have hform : (revise d x y).2 = d ∨ ∃ ws, (revise d x y).2 = domSet d x ws := by
      rw [revise, hc]
      exact reviseGo_as_domSet x y _ _ (domGet d x) false d
    rcases hform with hfix | ⟨ws, hws⟩
    · rw [hfix] at hdx
      have : w ∈ (domGet d x).filter (reviseKeepB d x y) := by rw [← hdx]; exact hw
      rw [List.mem_filter] at this
      rw [this.2] at hKw
      exact absurd hKw (by simp)
    · have hget : domGet (revise d x y).2 x = ws := by
        rw [hws]; exact domGet_domSet_self d x ws hxmem
      have hws_eq : ws = (domGet d x).filter (reviseKeepB d x y) := by
        rw [← hget, hdx]
      have hsz := domSize_domSet d x ws hxmem
      rw [← hws] at hsz
      rw [hws_eq] at hsz
      omega

/-- Fuel above the measure `(|vars|+1)·size + |queue|` always suffices. -/
theorem ac3Fuel_isSome (p : Puzzle) :
    ∀ (fuel : Nat) (d : Domains) (arcs : List (Variable × Variable)),
      (p.vars.length + 1) * domSize d + arcs.length < fuel →
      (ac3Fuel p fuel d arcs).isSome = true := by
  intro fuel
  induction fuel with
  | zero => intro d arcs h; omega
  | succ n ih =>
    intro d arcs h
    match arcs with
    | [] => simp [ac3Fuel]
    | (x, y) :: rest =>
      rw [ac3Fuel]
      by_cases hr : (revise d x y).1 = true
      · rw [if_pos hr]
        by_cases he : domGet (revise d x y).2 x = []
        · rw [if_pos he]; simp
        · rw [if_neg he]
          apply ih
          have hS : domSize (revise d x y).2 < domSize d := revise_true_domSize_lt hr
          have hq : (enqueueArcs x (eraseV (p.neighbors x) y) rest).length
              ≤ rest.length + p.vars.length := by
            have h1 := enqueueArcs_length_le x (eraseV (p.neighbors x) y) rest
            have h2 := eraseV_length_le (p.neighbors x) y
            have h3 : (p.neighbors x).length ≤ p.vars.length :=
              List.length_filter_le _ _
            omega
          have hmul : (p.vars.length + 1) * (domSize (revise d x y).2 + 1)
              ≤ (p.vars.length + 1) * domSize d :=
            Nat.mul_le_mul_left _ (by omega)
          have hexp : (p.vars.length + 1) * (domSize (revise d x y).2 + 1)
              = (p.vars.length + 1) * domSize (revise d x y).2 + (p.vars.length + 1) := by
            ring
          simp only [List.length_cons] at h
          omega
      · rw [if_neg hr]
        apply ih
        have hfix : (revise d x y).2 = d := revise_false_fix (by simpa using hr)
        rw [hfix]
        simp only [List.length_cons] at h
        omega

/-- C6: the `ac3` work-queue loop terminates on every input — for every
store and every initial arc list (the `None` default expands to the list of
all neighbor pairs, a caller may supply any other list), any fuel of at
least `ac3Bound` iterations makes the fuelled loop return a result instead
of running out. -/
theorem c6_ac3_terminates (p : Puzzle) (d : Domains) (arcs : List (Variable × Variable)) :
    ∀ fuel, ac3Bound p d arcs ≤ fuel → (ac3Fuel p fuel d arcs).isSome = true := by
  intro fuel hf
  apply ac3Fuel_isSome
  rw [ac3Bound] at hf
  omega

/-! ## Arc consistency after propagation (claim C4) -/

theorem mem_sharedCells {x y : Variable} {c : Cell} :
    c ∈ sharedCells x y ↔ c ∈ x.cells ∧ c ∈ y.cells := by
  simp [sharedCells, List.mem_filter]

theorem sharedCells_ne_nil_iff {x y : Variable} :
    sharedCells x y ≠ [] ↔ ∃ c, c ∈ x.cells ∧ c ∈ y.cells := by
  constructor
  · intro h
    rcases List.exists_mem_of_ne_nil _ h with ⟨c, hc⟩
    exact ⟨c, mem_sharedCells.mp hc⟩
  · rintro ⟨c, hc⟩ hnil
    have hm := mem_sharedCells.mpr hc
    rw [hnil] at hm
    simp at hm

theorem mem_neighbors {p : Puzzle} {x y : Variable} :
    y ∈ p.neighbors x ↔ y ∈ p.vars ∧ y ≠ x ∧ sharedCells x y ≠ [] := by
  simp [Puzzle.neighbors, List.mem_filter]

theorem neighbors_subset {p : Puzzle} {x y : Variable} (h : y ∈ p.neighbors x) :
    y ∈ p.vars := (mem_neighbors.mp h).1

theorem neighbors_ne {p : Puzzle} {x y : Variable} (h : y ∈ p.neighbors x) :
    y ≠ x := (mem_neighbors.mp h).2.1

theorem neighbors_symm {p : Puzzle} {x y : Variable} (hx : x ∈ p.vars)
    (h : y ∈ p.neighbors x) : x ∈ p.neighbors y := by
  rcases mem_neighbors.mp h with ⟨hyv, hyx, hsh⟩
  refine mem_neighbors.mpr ⟨hx, Ne.symm hyx, ?_⟩
  rcases sharedCells_ne_nil_iff.mp hsh with ⟨c, hcx, hcy⟩
  exact sharedCells_ne_nil_iff.mpr ⟨c, hcy, hcx⟩

theorem eq_singleton_of_length_le_one {l : List Cell} {c : Cell}
    (h1 : l.length ≤ 1) (hc : c ∈ l) : l = [c] := by
  match l with
  | [] => simp at hc
  | [c'] =>
    simp at hc
    rw [hc]
  | c' :: c'' :: rest => simp at h1

/-- Under the unique-overlap invariant the shared-cell list is symmetric. -/
theorem sharedCells_symm_unique {p : Puzzle} (hu : UniqueOverlaps p) {x y : Variable}
    (hx : x ∈ p.vars) (hy : y ∈ p.vars) (hne : x ≠ y) :
    sharedCells y x = sharedCells x y := by
  rcases hs : sharedCells x y with _ | ⟨c, cs⟩
  · rcases hs2 : sharedCells y x with _ | ⟨c', cs'⟩
    · rfl
    · have hc' : c' ∈ sharedCells y x := by rw [hs2]; simp
      rcases mem_sharedCells.mp hc' with ⟨h1, h2⟩
      have : c' ∈ sharedCells x y := mem_sharedCells.mpr ⟨h2, h1⟩
      rw [hs] at this
      simp at this
  · have hc : c ∈ sharedCells x y := by rw [hs]; simp
    have hxy := eq_singleton_of_length_le_one (hu x hx y hy hne) hc
    rcases mem_sharedCells.mp hc with ⟨h1, h2⟩
    have hc2 : c ∈ sharedCells y x := mem_sharedCells.mpr ⟨h2, h1⟩
    have hyx := eq_singleton_of_length_le_one (hu y hy x hx (Ne.symm hne)) hc2
    rw [hyx, ← hs, hxy]

theorem agreeAt_symm (ix iy : Nat) (wx wy : Word) :
    agreeAt ix iy wx wy = agreeAt iy ix wy wx := by
  simp [agreeAt, eq_comm]

theorem reviseKeepB_congr {d1 d2 : Domains} {x y : Variable}
    (h : domGet d1 y = domGet d2 y) (w : Word) :
    reviseKeepB d1 x y w = reviseKeepB d2 x y w := by
  rcases hs : sharedCells x y with _ | ⟨c, cs⟩
  · rw [reviseKeepB_of_nil hs, reviseKeepB_of_nil hs]
  · rw [reviseKeepB_of_cons hs, reviseKeepB_of_cons hs, h]

/-- Arc consistency of `x` with respect to `y`: every word of `domains[x]`
has an agreeing partner in `domains[y]` at the shared cell (the support
predicate of `revise`). -/
def arcConsistentB (d : Domains) (x y : Variable) : Bool :=
  (domGet d x).all (reviseKeepB d x y)

/-- Every queued arc joins a variable of the store with one of its
neighbors. -/
def ArcsOK (p : Puzzle) (arcs : List (Variable × Variable)) : Prop :=
  ∀ e ∈ arcs, e.1 ∈ p.vars ∧ e.2 ∈ p.neighbors e.1

/-- The AC-3 loop invariant: every neighbor pair is already consistent or
still queued. -/
def QueueInv (p : Puzzle) (d : Domains) (arcs : List (Variable × Variable)) : Prop :=
  ∀ x ∈ p.vars, ∀ y ∈ p.neighbors x, arcConsistentB d x y = true ∨ (x, y) ∈ arcs

theorem mem_enqueueArcs_of_mem (x : Variable) (zs : List Variable)
    {arcs : List (Variable × Variable)} {e : Variable × Variable} (h : e ∈ arcs) :
    e ∈ enqueueArcs x zs arcs := by
  induction zs generalizing arcs with
  | nil => exact h
  | cons z zs ih =>
    rw [enqueueArcs, List.foldl_cons]
    by_cases hz : (z, x) ∈ arcs
    · rw [if_pos hz]
      exact ih h
    · rw [if_neg hz]
      exact ih (by simp [h])

theorem mem_enqueueArcs_self (x : Variable) {zs : List Variable} {z : Variable}
    (hz : z ∈ zs) (arcs : List (Variable × Variable)) :
    (z, x) ∈ enqueueArcs x zs arcs := by
  induction zs generalizing arcs with
  | nil => simp at hz
  | cons z' zs ih =>
    rw [enqueueArcs, List.foldl_cons]
    rcases List.mem_cons.mp hz with h1 | h1
    · subst h1
      by_cases hmem : (z, x) ∈ arcs
      · rw [if_pos hmem]
        exact mem_enqueueArcs_of_mem x zs hmem
      · rw [if_neg hmem]
        exact mem_enqueueArcs_of_mem x zs (by simp)
    · by_cases hmem : (z', x) ∈ arcs
      · rw [if_pos hmem]
        exact ih h1 arcs
      · rw [if_neg hmem]
        exact ih h1 _

theorem mem_of_mem_enqueueArcs {x : Variable} {zs : List Variable}
    {arcs : List (Variable × Variable)} {e : Variable × Variable}
    (h : e ∈ enqueueArcs x zs arcs) : e ∈ arcs ∨ ∃ z ∈ zs, e = (z, x) := by
  induction zs generalizing arcs with
  | nil => exact Or.inl h
  | cons z zs ih =>
    rw [enqueueArcs, List.foldl_cons] at h
    by_cases hz : (z, x) ∈ arcs
    · rw [if_pos hz] at h
      rcases ih h with h1 | ⟨z', hz', he⟩
      · exact Or.inl h1
      · exact Or.inr ⟨z', by simp [hz'], he⟩
    · rw [if_neg hz] at h
      rcases ih h with h1 | ⟨z', hz', he⟩
      · rcases List.mem_append.mp h1 with h2 | h2
        · exact Or.inl h2
        · simp at h2
          exact Or.inr ⟨z, by simp, h2⟩
      · exact Or.inr ⟨z', by simp [hz'], he⟩

theorem mem_eraseV_of_ne {l : List Variable} {z y : Variable}
    (hz : z ∈ l) (hne : z ≠ y) : z ∈ eraseV l y := by
  induction l with
  | nil => simp at hz
  | cons w ws ih =>
    by_cases hw : w = y
    · rw [eraseV, if_pos hw]
      rcases List.mem_cons.mp hz with h1 | h1
      · rw [h1] at hne; exact absurd hw hne
      · exact h1
    · rw [eraseV, if_neg hw]
      rcases List.mem_cons.mp hz with h1 | h1
      · simp [h1]
      · simp [ih h1]

theorem eraseV_subset {l : List Variable} {z y : Variable}
    (hz : z ∈ eraseV l y) : z ∈ l := by
  induction l with
  | nil => simp [eraseV] at hz
  | cons w ws ih =>
    by_cases hw : w = y
    · rw [eraseV, if_pos hw] at hz
      simp [hz]
    · rw [eraseV, if_neg hw] at hz
      rcases List.mem_cons.mp hz with h1 | h1
      · simp [h1]
      · simp [ih h1]

theorem revise_keys (d : Domains) (x y : Variable) :
    domKeys (revise d x y).2 = domKeys d := by
  rcases hc : sharedCells x y with _ | ⟨c, cs⟩
  · rw [revise, hc]
  · rw [revise, hc]
    rcases reviseGo_as_domSet x y (cellIndex x.cells c) (cellIndex y.cells c)
        (domGet d x) false d with h | ⟨ws, h⟩
    · rw [h]
    · rw [h, domKeys_domSet]

/-- The main AC-3 loop invariant theorem: starting from a queue whose arcs
are valid and that covers every not-yet-consistent neighbor pair, a `True`
result leaves every neighbor pair arc consistent and a `False` result
leaves some domain empty. -/
theorem ac3Fuel_spec (p : Puzzle) (hp : ValidPuzzle p) :
    ∀ (fuel : Nat) (d : Domains) (arcs : List (Variable × Variable)),
      domKeys d = p.vars → ArcsOK p arcs → QueueInv p d arcs →
      ∀ {b : Bool} {d' : Domains},
      ac3Fuel p fuel d arcs = some (b, d') →
      domKeys d' = p.vars ∧
      (b = true → ∀ x ∈ p.vars, ∀ y ∈ p.neighbors x, arcConsistentB d' x y = true) ∧
      (b = false → ∃ v ∈ p.vars, domGet d' v = []) := by
  intro fuel
  induction fuel with
  | zero =>
    intro d arcs _ _ _ b d' hrun
    simp [ac3Fuel] at hrun
  | succ n ih =>
    intro d arcs hkeys hok hinv b d' hrun
    rcases arcs with _ | ⟨⟨x, y⟩, rest⟩
    · simp only [ac3Fuel, Option.some.injEq, Prod.mk.injEq] at hrun
      obtain ⟨hb, hd⟩ := hrun
      subst hb
      subst hd
      refine ⟨hkeys, ?_, ?_⟩
      · intro _ u hu v hv
        rcases hinv u hu v hv with h | h
        · exact h
        · simp at h
      · intro hfalse
        exact absurd hfalse (by simp)
    · have hxv : x ∈ p.vars := (hok (x, y) (by simp)).1
      have hyn : y ∈ p.neighbors x := (hok (x, y) (by simp)).2
      have hyv : y ∈ p.vars := neighbors_subset hyn
      have hyx : y ≠ x := neighbors_ne hyn
      simp only [ac3Fuel] at hrun
      by_cases hr : (revise d x y).1 = true
      · rw [if_pos hr] at hrun
        have hshared : sharedCells x y ≠ [] := by
          intro hnil
          have hfix : revise d x y = (false, d) := by rw [revise, hnil]
          rw [hfix] at hr
          exact absurd hr (by simp)
        obtain ⟨-, hchar⟩ := revise_spec d x y
        obtain ⟨hdx, hother, -⟩ := hchar hshared
        have hkeys1 : domKeys (revise d x y).2 = p.vars := by
          rw [revise_keys]
          exact hkeys
        by_cases he : domGet (revise d x y).2 x = []
        · rw [if_pos he] at hrun
          simp only [Option.some.injEq, Prod.mk.injEq] at hrun
          obtain ⟨hb, hd⟩ := hrun
          subst hb
          subst hd
          refine ⟨hkeys1, ?_, ?_⟩
          · intro hcontra
            simp at hcontra
          · intro _
            exact ⟨x, hxv, he⟩
        · rw [if_neg he] at hrun
          have hok1 : ArcsOK p (enqueueArcs x (eraseV (p.neighbors x) y) rest) := by
            intro e he'
            rcases mem_of_mem_enqueueArcs he' with h1 | ⟨z, hz, rfl⟩
            · exact hok e (List.mem_cons_of_mem _ h1)
            · have hz1 : z ∈ p.neighbors x := eraseV_subset hz
              exact ⟨neighbors_subset hz1, neighbors_symm hxv hz1⟩
          have hinv1 : QueueInv p (revise d x y).2
              (enqueueArcs x (eraseV (p.neighbors x) y) rest) := by
            intro u hu v hv
            rcases hinv u hu v hv with hcons | hqueue
            · by_cases hvx : v = x
              · by_cases huy : u = y
                · left
                  rw [huy, hvx]
                  simp only [arcConsistentB, List.all_eq_true]
                  intro wy hwy
                  rw [hother y hyx] at hwy
                  have hcons0 : arcConsistentB d y x = true := by
                    rw [← huy, ← hvx]
                    exact hcons
                  simp only [arcConsistentB, List.all_eq_true] at hcons0
                  have hcons' := hcons0 wy hwy
                  have hsym : sharedCells y x = sharedCells x y :=
                    sharedCells_symm_unique hp.2 hxv hyv (fun h => hyx h.symm)
                  rcases hs : sharedCells x y with _ | ⟨c, cs⟩
                  · exact absurd hs hshared
                  · have hs2 : sharedCells y x = c :: cs := by rw [hsym, hs]
                    rw [reviseKeepB_of_cons hs2] at hcons'
                    rw [reviseKeepB_of_cons hs2]
                    rw [supportedOn, List.any_eq_true] at hcons' ⊢
                    obtain ⟨wx, hwx, hagree⟩ := hcons'
                    refine ⟨wx, ?_, hagree⟩
                    rw [hdx, List.mem_filter]
                    refine ⟨hwx, ?_⟩
                    rw [reviseKeepB_of_cons hs, supportedOn, List.any_eq_true]
                    refine ⟨wy, hwy, ?_⟩
                    rw [agreeAt_symm]
                    exact hagree
                · right
                  have hvmem : x ∈ p.neighbors u := by
                    rw [← hvx]
                    exact hv
                  have hun : u ∈ p.neighbors x := neighbors_symm hu hvmem
                  rw [hvx]
                  exact mem_enqueueArcs_self x (mem_eraseV_of_ne hun huy) rest
              · left
                simp only [arcConsistentB, List.all_eq_true] at hcons ⊢
                intro wu hwu
                rw [reviseKeepB_congr (hother v hvx) wu]
                by_cases hux : u = x
                · rw [hux] at hwu
                  rw [hdx, List.mem_filter] at hwu
                  have := hcons wu (by rw [hux]; exact hwu.1)
                  exact this
                · rw [hother u hux] at hwu
                  exact hcons wu hwu
            · rcases List.mem_cons.mp hqueue with heq | hrest
              · have hu_eq : u = x := congrArg Prod.fst heq
                have hv_eq : v = y := congrArg Prod.snd heq
                left
                rw [hu_eq, hv_eq]
                simp only [arcConsistentB, List.all_eq_true]
                intro wx hwx
                rw [hdx, List.mem_filter] at hwx
                rw [reviseKeepB_congr (hother y hyx) wx]
                exact hwx.2
              · exact Or.inr (mem_enqueueArcs_of_mem _ _ hrest)
          exact ih (revise d x y).2 _ hkeys1 hok1 hinv1 hrun
      · rw [if_neg hr] at hrun
        have hfix : (revise d x y).2 = d := revise_false_fix (by simpa using hr)
        rw [hfix] at hrun
        have hok1 : ArcsOK p rest := fun e he' => hok e (List.mem_cons_of_mem _ he')
        have hinv1 : QueueInv p d rest := by
          intro u hu v hv
          rcases hinv u hu v hv with hcons | hqueue
          · exact Or.inl hcons
          · rcases List.mem_cons.mp hqueue with heq | hrest
            · have hu_eq : u = x := congrArg Prod.fst heq
              have hv_eq : v = y := congrArg Prod.snd heq
              left
              rw [hu_eq, hv_eq]
              simp only [arcConsistentB, List.all_eq_true]
              intro wu hwu
              rcases hs : sharedCells x y with _ | ⟨c, cs⟩
              · exact reviseKeepB_of_nil hs wu
              · obtain ⟨-, hchar⟩ := revise_spec d x y
                obtain ⟨-, -, hflag⟩ := hchar (by rw [hs]; simp)
                by_contra hKf
                have hKf' : reviseKeepB d x y wu = false := by
                  simpa using hKf
                exact absurd (hflag.mpr ⟨wu, hwu, hKf'⟩) (by simpa using hr)
            · exact Or.inr hrest
        exact ih d rest hkeys hok1 hinv1 hrun

theorem ac3Fuel_run_eq (p : Puzzle) (d : Domains) (arcs : List (Variable × Variable)) :
    ac3Fuel p (ac3Bound p d arcs) d arcs = some (ac3Run p d arcs) := by
  have h : (ac3Fuel p (ac3Bound p d arcs) d arcs).isSome = true := by
    apply ac3Fuel_isSome
    rw [ac3Bound]
    omega
  rcases hx : ac3Fuel p (ac3Bound p d arcs) d arcs with _ | r
  · rw [hx] at h
    simp at h
  · rw [ac3Run, hx]
    rfl

theorem mem_foldl_append {β : Type} (f : Variable → List β) :
    ∀ (l : List Variable) (acc : List β) (e : β),
      e ∈ l.foldl (fun acc v => acc ++ f v) acc ↔ e ∈ acc ∨ ∃ v ∈ l, e ∈ f v := by
  intro l
  induction l with
  | nil => intro acc e; simp
  | cons v vs ih =>
    intro acc e
    rw [List.foldl_cons, ih]
    constructor
    · rintro (h1 | ⟨u, hu, he⟩)
      · rcases List.mem_append.mp h1 with h2 | h2
        · exact Or.inl h2
        · exact Or.inr ⟨v, by simp, h2⟩
      · exact Or.inr ⟨u, by simp [hu], he⟩
    · rintro (h1 | ⟨u, hu, he⟩)
      · exact Or.inl (List.mem_append.mpr (Or.inl h1))
      · rcases List.mem_cons.mp hu with h2 | h2
        · subst h2
          exact Or.inl (List.mem_append.mpr (Or.inr he))
        · exact Or.inr ⟨u, h2, he⟩

theorem mem_allArcs_iff (p : Puzzle) (d : Domains) (e : Variable × Variable) :
    e ∈ allArcs p d ↔ ∃ v ∈ domKeys d, ∃ w ∈ p.neighbors v, e = (v, w) := by
  rw [allArcs, List.mem_dedup,
    mem_foldl_append (fun v => (p.neighbors v).map (fun x => (v, x))) (domKeys d) [] e]
  simp only [List.mem_nil_iff, false_or, List.mem_map]
  constructor
  · rintro ⟨v, hv, w, hw, he⟩
    exact ⟨v, hv, w, hw, he.symm⟩
  · rintro ⟨v, hv, w, hw, he⟩
    exact ⟨v, hv, w, hw, he.symm⟩

/-- C4: after a full run of `ac3` with the default `None` arcs (all ordered
pairs of neighbors): a `True` result means every word left in any variable's
domain has an agreeing partner in each neighbor's domain at the shared cell,
and a `False` result means some variable's domain is empty. -/
theorem c4_ac3_full (p : Puzzle) (d : Domains) (hp : ValidPuzzle p)
    (hkeys : domKeys d = p.vars) :
    ((ac3Full p d).1 = true →
      ∀ x ∈ p.vars, ∀ y ∈ p.neighbors x, arcConsistentB (ac3Full p d).2 x y = true) ∧
    ((ac3Full p d).1 = false → ∃ v ∈ p.vars, domGet (ac3Full p d).2 v = []) := by
  have hok : ArcsOK p (allArcs p d) := by
    intro e he
    rcases (mem_allArcs_iff p d e).mp he with ⟨v, hv, w, hw, rfl⟩
    rw [hkeys] at hv
    exact ⟨hv, hw⟩
  have hinv : QueueInv p d (allArcs p d) := by
    intro u hu v hv
    right
    rw [mem_allArcs_iff]
    exact ⟨u, by rw [hkeys]; exact hu, v, hv, rfl⟩
  have hrun : ac3Fuel p (ac3Bound p d (allArcs p d)) d (allArcs p d)
      = some ((ac3Full p d).1, (ac3Full p d).2) := by
    rw [ac3Fuel_run_eq]
    rfl
  obtain ⟨-, h2, h3⟩ := ac3Fuel_spec p hp (ac3Bound p d (allArcs p d)) d (allArcs p d)
    hkeys hok hinv hrun
  exact ⟨h2, h3⟩

/-- C4 witness: a concrete two-variable puzzle whose full propagation
returns `True`. -/
theorem c4_ac3_full_witness :
    ((ac3Full ⟨[⟨[(0,0),(0,1)]⟩, ⟨[(0,0),(1,0)]⟩]⟩
          [(⟨[(0,0),(0,1)]⟩, [['a','b'], ['b','b']]), (⟨[(0,0),(1,0)]⟩, [['a','c']])]).1 = true →
        ∀ x ∈ (Puzzle.mk [⟨[(0,0),(0,1)]⟩, ⟨[(0,0),(1,0)]⟩]).vars,
          ∀ y ∈ (Puzzle.mk [⟨[(0,0),(0,1)]⟩, ⟨[(0,0),(1,0)]⟩]).neighbors x,
            arcConsistentB (ac3Full ⟨[⟨[(0,0),(0,1)]⟩, ⟨[(0,0),(1,0)]⟩]⟩
              [(⟨[(0,0),(0,1)]⟩, [['a','b'], ['b','b']]), (⟨[(0,0),(1,0)]⟩, [['a','c']])]).2 x y
              = true) ∧
      ((ac3Full ⟨[⟨[(0,0),(0,1)]⟩, ⟨[(0,0),(1,0)]⟩]⟩
          [(⟨[(0,0),(0,1)]⟩, [['a','b'], ['b','b']]), (⟨[(0,0),(1,0)]⟩, [['a','c']])]).1 = false →
        ∃ v ∈ (Puzzle.mk [⟨[(0,0),(0,1)]⟩, ⟨[(0,0),(1,0)]⟩]).vars,
          domGet (ac3Full ⟨[⟨[(0,0),(0,1)]⟩, ⟨[(0,0),(1,0)]⟩]⟩
            [(⟨[(0,0),(0,1)]⟩, [['a','b'], ['b','b']]), (⟨[(0,0),(1,0)]⟩, [['a','c']])]).2 v = []) :=
  c4_ac3_full ⟨[⟨[(0,0),(0,1)]⟩, ⟨[(0,0),(1,0)]⟩]⟩
    [(⟨[(0,0),(0,1)]⟩, [['a','b'], ['b','b']]), (⟨[(0,0),(1,0)]⟩, [['a','c']])]
    (by decide) (by decide)

/-- C6 witness: a concrete two-variable store with the full arc list. -/
theorem c6_ac3_terminates_witness :
    (ac3Fuel ⟨[⟨[(0,0),(0,1)]⟩, ⟨[(0,0),(1,0)]⟩]⟩
        (ac3Bound ⟨[⟨[(0,0),(0,1)]⟩, ⟨[(0,0),(1,0)]⟩]⟩
          [(⟨[(0,0),(0,1)]⟩, [['a','b'], ['b','b']]), (⟨[(0,0),(1,0)]⟩, [['a','c']])]
          (allArcs ⟨[⟨[(0,0),(0,1)]⟩, ⟨[(0,0),(1,0)]⟩]⟩
            [(⟨[(0,0),(0,1)]⟩, [['a','b'], ['b','b']]), (⟨[(0,0),(1,0)]⟩, [['a','c']])]))
        [(⟨[(0,0),(0,1)]⟩, [['a','b'], ['b','b']]), (⟨[(0,0),(1,0)]⟩, [['a','c']])]
        (allArcs ⟨[⟨[(0,0),(0,1)]⟩, ⟨[(0,0),(1,0)]⟩]⟩
          [(⟨[(0,0),(0,1)]⟩, [['a','b'], ['b','b']]), (⟨[(0,0),(1,0)]⟩, [['a','c']])])).isSome
      = true :=
  c6_ac3_terminates _ _ _ _ (Nat.le_refl _)

/-! ## Invariants of the backtracking search (claims C1, C9) -/

/-- Heap invariant: `self.domains` points into the heap and every store ever
allocated is keyed by exactly the puzzle's variables. -/
def HInv (p : Puzzle) (s : BState) : Prop :=
  s.cur < s.heap.length ∧ ∀ d ∈ s.heap, domKeys d = p.vars

/-- Assignment invariant (a Python dict over puzzle variables): distinct
keys, all of them variables of the puzzle. -/
def AInv (p : Puzzle) (a : Assignment) : Prop :=
  (a.map Prod.fst).Nodup ∧ ∀ e ∈ a, e.1 ∈ p.vars

/-- The spec's search invariant: "every assigned word is still present in
that variable's domain". -/
def WInv (d : Domains) (a : Assignment) : Prop :=
  ∀ e ∈ a, e.2 ∈ domGet d e.1

instance (p : Puzzle) (s : BState) : Decidable (HInv p s) := by
  unfold HInv; infer_instance

instance (p : Puzzle) (a : Assignment) : Decidable (AInv p a) := by
  unfold AInv; infer_instance

instance (d : Domains) (a : Assignment) : Decidable (WInv d a) := by
  unfold WInv; infer_instance

/-- The per-entry check of `consistent` (the body of its outer loop). -/
def entryOK (p : Puzzle) (a : Assignment) (e : Variable × Word) : Bool :=
  decide (e.2.length = e.1.length) &&
  decide ((a.map Prod.snd).count e.2 = 1) &&
  (p.neighbors e.1).all (fun n =>
    match aGet a n with
    | none => true
    | some wn => nbrOverlapOK e.1 e.2 n wn)

theorem consistentB_eq_all (p : Puzzle) (a : Assignment) :
    consistentB p a = a.all (entryOK p a) := rfl

theorem heapGet_mem {hs : List Domains} {i : Nat} (h : i < hs.length) :
    heapGet hs i ∈ hs := by
  induction hs generalizing i with
  | nil => simp at h
  | cons d rest ih =>
    cases i with
    | zero => simp [heapGet]
    | succ n =>
      have := ih (i := n) (by simpa using h)
      simp [heapGet, this]

theorem mem_heapSet {hs : List Domains} {i : Nat} {d0 d : Domains}
    (h : d ∈ heapSet hs i d0) : d ∈ hs ∨ d = d0 := by
  induction hs generalizing i with
  | nil => simp [heapSet] at h
  | cons e rest ih =>
    cases i with
    | zero =>
      rcases List.mem_cons.mp h with h1 | h1
      · exact Or.inr h1
      · exact Or.inl (List.mem_cons_of_mem _ h1)
    | succ n =>
      rcases List.mem_cons.mp h with h1 | h1
      · exact Or.inl (by simp [h1])
      · rcases ih h1 with h2 | h2
        · exact Or.inl (List.mem_cons_of_mem _ h2)
        · exact Or.inr h2

theorem mem_insertBy {le : α → α → Bool} {x y : α} {l : List α} :
    x ∈ insertBy le y l ↔ x = y ∨ x ∈ l := by
  induction l with
  | nil => simp [insertBy]
  | cons z zs ih =>
    by_cases h : le z y = true
    · rw [insertBy, if_pos h]
      constructor
      · intro hx
        rcases List.mem_cons.mp hx with h1 | h1
        · exact Or.inr (by simp [h1])
        · rcases ih.mp h1 with h2 | h2
          · exact Or.inl h2
          · exact Or.inr (by simp [h2])
      · rintro (h1 | h1)
        · exact List.mem_cons_of_mem _ (ih.mpr (Or.inl h1))
        · rcases List.mem_cons.mp h1 with h2 | h2
          · simp [h2]
          · exact List.mem_cons_of_mem _ (ih.mpr (Or.inr h2))
    · rw [insertBy, if_neg h]
      simp [List.mem_cons]

theorem mem_sortBy {le : α → α → Bool} {x : α} {l : List α} :
    x ∈ sortBy le l ↔ x ∈ l := by
  suffices h : ∀ (l : List α) (acc : List α),
      x ∈ l.foldl (fun acc y => insertBy le y acc) acc ↔ x ∈ acc ∨ x ∈ l by
    rw [sortBy, h l []]
    simp
  intro l
  induction l with
  | nil => intro acc; simp
  | cons y ys ih =>
    intro acc
    rw [List.foldl_cons, ih]
    rw [mem_insertBy]
    constructor
    · rintro ((h1 | h1) | h1)
      · exact Or.inr (by simp [h1])
      · exact Or.inl h1
      · exact Or.inr (by simp [h1])
    · rintro (h1 | h1)
      · exact Or.inl (Or.inr h1)
      · rcases List.mem_cons.mp h1 with h2 | h2
        · exact Or.inl (Or.inl h2)
        · exact Or.inr h2

theorem select_unassigned_some {p : Puzzle} {d : Domains} {a : Assignment} {var : Variable}
    (h : select_unassigned_variable p d a = some var) :
    var ∈ domKeys d ∧ aGet a var = none := by
  rw [select_unassigned_variable] at h
  have hmem : var ∈ sortBy (selectLe p d) ((domKeys d).filter (fun v => (aGet a v).isNone)) := by
    rcases hl : sortBy (selectLe p d) ((domKeys d).filter (fun v => (aGet a v).isNone)) with
      _ | ⟨u, us⟩
    · rw [hl] at h; simp at h
    · rw [hl] at h
      simp at h
      simp [hl, h]
  rw [mem_sortBy, List.mem_filter] at hmem
  refine ⟨hmem.1, ?_⟩
  have := hmem.2
  simp [Option.isNone_iff_eq_none] at this
  exact this

theorem aGet_none_not_key {a : Assignment} {v : Variable} (h : aGet a v = none) :
    v ∉ a.map Prod.fst := by
  intro hmem
  rcases List.mem_map.mp hmem with ⟨e, he, hfst⟩
  exact (aGet_eq_none_iff a v).mp h e he hfst

/-- Extract the overlap agreement of two assigned neighbors from
`consistent`. -/
theorem consistent_overlap {p : Puzzle} {r : Assignment}
    (hcons : consistentB p r = true) {x : Variable} {wx : Word} {y : Variable} {wy : Word}
    (hx : (x, wx) ∈ r) (hy : y ∈ p.neighbors x) (hget : aGet r y = some wy) :
    nbrOverlapOK x wx y wy = true := by
  rw [consistentB_eq_all, List.all_eq_true] at hcons
  have he := hcons (x, wx) hx
  rw [entryOK, Bool.and_eq_true, Bool.and_eq_true] at he
  have h3 := he.2
  rw [List.all_eq_true] at h3
  have := h3 y hy
  rw [hget] at this
  exact this

theorem nbrOverlapOK_of_cons {x n : Variable} {c : Cell} {cs : List Cell}
    (hs : sharedCells x n = c :: cs) (wx wn : Word) :
    nbrOverlapOK x wx n wn
      = agreeAt (cellIndex x.cells c) (cellIndex n.cells c) wx wn := by
  simp [nbrOverlapOK, hs]

/-- `ac3` on a store supporting a complete consistent assignment returns
`True` and keeps every assigned word in its domain. -/
theorem ac3Fuel_supported (p : Puzzle) {r : Assignment}
    (hcomp : ∀ v ∈ p.vars, (aGet r v).isSome)
    (hcons : consistentB p r = true) :
    ∀ (fuel : Nat) (d : Domains) (arcs : List (Variable × Variable)),
      domKeys d = p.vars → ArcsOK p arcs → WInv d r →
      ∀ {b : Bool} {d' : Domains}, ac3Fuel p fuel d arcs = some (b, d') →
        b = true ∧ domKeys d' = p.vars ∧ WInv d' r := by
  intro fuel
  induction fuel with
  | zero =>
    intro d arcs _ _ _ b d' hrun
    simp [ac3Fuel] at hrun
  | succ n ih =>
    intro d arcs hkeys hok hW b d' hrun
    rcases arcs with _ | ⟨⟨x, y⟩, rest⟩
    · simp only [ac3Fuel, Option.some.injEq, Prod.mk.injEq] at hrun
      obtain ⟨hb, hd⟩ := hrun
      subst hb
      subst hd
      exact ⟨rfl, hkeys, hW⟩
    · have hxv : x ∈ p.vars := (hok (x, y) (by simp)).1
      have hyn : y ∈ p.neighbors x := (hok (x, y) (by simp)).2
      have hyv : y ∈ p.vars := neighbors_subset hyn
      have hyx : y ≠ x := neighbors_ne hyn
      simp only [ac3Fuel] at hrun
      by_cases hr : (revise d x y).1 = true
      · rw [if_pos hr] at hrun
        have hshared : sharedCells x y ≠ [] := by
          intro hnil
          have hfix : revise d x y = (false, d) := by rw [revise, hnil]
          rw [hfix] at hr
          exact absurd hr (by simp)
        obtain ⟨-, hchar⟩ := revise_spec d x y
        obtain ⟨hdx, hother, -⟩ := hchar hshared
        have hkeys1 : domKeys (revise d x y).2 = p.vars := by
          rw [revise_keys]; exact hkeys
        -- every assigned word survives the revision
        have hW1 : WInv (revise d x y).2 r := by
          intro e he
          by_cases hex : e.1 = x
          · rw [hex, hdx, List.mem_filter]
            have hmem : e.2 ∈ domGet d e.1 := hW e he
            rw [hex] at hmem
            refine ⟨hmem, ?_⟩
            rcases hs : sharedCells x y with _ | ⟨c, cs⟩
            · exact absurd hs hshared
            rw [reviseKeepB_of_cons hs, supportedOn, List.any_eq_true]
            have hsome := hcomp y hyv
            rcases hget : aGet r y with _ | wy
            · rw [hget] at hsome; simp at hsome
            have hwy : wy ∈ domGet d y := hW (y, wy) (aGet_mem hget)
            refine ⟨wy, hwy, ?_⟩
            have hxw : (x, e.2) ∈ r := by
              rw [← hex]
              exact (show (e.1, e.2) ∈ r by simpa using he)
            have := consistent_overlap hcons hxw hyn hget
            rw [nbrOverlapOK_of_cons hs] at this
            exact this
          · rw [hother e.1 hex]
            exact hW e he
        have hne : domGet (revise d x y).2 x ≠ [] := by
          have hsome := hcomp x hxv
          rcases hget : aGet r x with _ | wx
          · rw [hget] at hsome; simp at hsome
          have : wx ∈ domGet (revise d x y).2 x := hW1 (x, wx) (aGet_mem hget)
          intro hnil
          rw [hnil] at this
          simp at this
        rw [if_neg hne] at hrun
        have hok1 : ArcsOK p (enqueueArcs x (eraseV (p.neighbors x) y) rest) := by
          intro e he'
          rcases mem_of_mem_enqueueArcs he' with h1 | ⟨z, hz, rfl⟩
          · exact hok e (List.mem_cons_of_mem _ h1)
          · have hz1 : z ∈ p.neighbors x := eraseV_subset hz
            exact ⟨neighbors_subset hz1, neighbors_symm hxv hz1⟩
        exact ih (revise d x y).2 _ hkeys1 hok1 hW1 hrun
      · rw [if_neg hr] at hrun
        have hfix : (revise d x y).2 = d := revise_false_fix (by simpa using hr)
        rw [hfix] at hrun
        exact ih d rest hkeys (fun e he' => hok e (List.mem_cons_of_mem _ he')) hW hrun

/-- `ac3Run` version of `ac3Fuel_supported`. -/
theorem ac3Run_supported (p : Puzzle) {r : Assignment}
    (hcomp : ∀ v ∈ p.vars, (aGet r v).isSome)
    (hcons : consistentB p r = true)
    (d : Domains) (arcs : List (Variable × Variable))
    (hkeys : domKeys d = p.vars) (hok : ArcsOK p arcs) (hW : WInv d r) :
    (ac3Run p d arcs).1 = true ∧ domKeys (ac3Run p d arcs).2 = p.vars ∧
      WInv (ac3Run p d arcs).2 r := by
  have hrun : ac3Fuel p (ac3Bound p d arcs) d arcs
      = some ((ac3Run p d arcs).1, (ac3Run p d arcs).2) := by
    rw [ac3Fuel_run_eq]
  exact ac3Fuel_supported p hcomp hcons (ac3Bound p d arcs) d arcs hkeys hok hW hrun

/-- The inductive contract of a `backtrack` call: it preserves the heap
invariant, only ever mutates the heap slot `self.domains` points at (aside
from fresh allocations), leaves `self.domains` at the same slot or a fresh
one, restores the assignment (and the assigned words' domains in the current
slot) on failure, and on success returns a complete assignment that extends
the input, is consistent (or is the unchanged input), and whose words all
remain in their domains. -/
def BtContract (p : Puzzle) (bt : BState → Option (Option Assignment × BState)) : Prop :=
  ∀ s : BState, HInv p s → AInv p s.assign → WInv (curDom s) s.assign →
    ∀ res s', bt s = some (res, s') →
      HInv p s' ∧
      s.heap.length ≤ s'.heap.length ∧
      (s'.cur = s.cur ∨ s.heap.length ≤ s'.cur) ∧
      (∀ i, i < s.heap.length → i ≠ s.cur → heapGet s'.heap i = heapGet s.heap i) ∧
      (res = none →
        s'.assign = s.assign ∧
        ∀ e ∈ s.assign,
          domGet (heapGet s'.heap s.cur) e.1 = domGet (heapGet s.heap s.cur) e.1) ∧
      (∀ r, res = some r →
        s'.assign = r ∧
        (∀ v w, aGet s.assign v = some w → aGet r v = some w) ∧
        AInv p r ∧
        (∀ v ∈ p.vars, (aGet r v).isSome) ∧
        (consistentB p r = true ∨ r = s.assign) ∧
        WInv (curDom s') r)

/-- The candidate loop of `backtrack` satisfies the same contract, with the
snapshot slot `copyIdx` additionally readable and restored-for-assigned-
variables on failure. -/
theorem tryVals_master (p : Puzzle)
    (bt : BState → Option (Option Assignment × BState)) (hbt : BtContract p bt)
    (var : Variable) (hvar : var ∈ p.vars) (copyIdx : Nat) :
    ∀ (vals : List Word) (s : BState),
      HInv p s → AInv p s.assign → WInv (curDom s) s.assign →
      aGet s.assign var = none →
      copyIdx < s.heap.length →
      WInv (heapGet s.heap copyIdx) s.assign →
      ∀ res s', tryValsAux p bt var copyIdx vals s = some (res, s') →
        HInv p s' ∧
        s.heap.length ≤ s'.heap.length ∧
        (s'.cur = s.cur ∨ s'.cur = copyIdx ∨ s.heap.length ≤ s'.cur) ∧
        (∀ i, i < s.heap.length → i ≠ s.cur → i ≠ copyIdx →
          heapGet s'.heap i = heapGet s.heap i) ∧
        (res = none →
          s'.assign = s.assign ∧
          (∀ e ∈ s.assign,
            domGet (heapGet s'.heap s.cur) e.1 = domGet (heapGet s.heap s.cur) e.1) ∧
          (∀ e ∈ s.assign,
            domGet (heapGet s'.heap copyIdx) e.1 = domGet (heapGet s.heap copyIdx) e.1)) ∧
        (∀ r, res = some r →
          s'.assign = r ∧
          (∀ v w, aGet s.assign v = some w → aGet r v = some w) ∧
          AInv p r ∧
          (∀ v ∈ p.vars, (aGet r v).isSome) ∧
          consistentB p r = true ∧
          WInv (curDom s') r) := by
  intro vals
  induction vals with
  | nil =>
    intro s hH hA hW hvarnone hcp hWcp res s' hrun
    simp only [tryValsAux, Option.some.injEq, Prod.mk.injEq] at hrun
    obtain ⟨hres, hs⟩ := hrun
    subst hres
    subst hs
    refine ⟨hH, Nat.le_refl _, Or.inl rfl, fun i _ _ _ => rfl, ?_, ?_⟩
    · exact fun _ => ⟨rfl, fun e _ => rfl, fun e _ => rfl⟩
    · intro r hr
      exact absurd hr (by simp)
  | cons val rest ih =>
    intro s hH hA hW hvarnone hcp hWcp res s' hrun
    simp only [tryValsAux] at hrun
    have hvarkey : var ∉ s.assign.map Prod.fst := aGet_none_not_key hvarnone
    have ha1app : aSet s.assign var val = s.assign ++ [(var, val)] :=
      aSet_eq_append val hvarnone
    have ha1del : aDel (aSet s.assign var val) var = s.assign := aDel_aSet val hvarnone
    have ha1sub : ∀ e ∈ s.assign, e ∈ aSet s.assign var val := by
      intro e he
      rw [ha1app]
      exact List.mem_append.mpr (Or.inl he)
    have hcurkeys : domKeys (curDom s) = p.vars := hH.2 _ (heapGet_mem hH.1)
    by_cases hcons : consistentB p (aSet s.assign var val) = true
    · rw [if_pos hcons] at hrun
      have hA1 : AInv p (aSet s.assign var val) := by
        constructor
        · rw [ha1app, List.map_append, List.nodup_append]
          refine ⟨hA.1, by simp, ?_⟩
          intro u hu
          simp only [List.map_cons, List.map_nil, List.mem_singleton]
          intro huvar
          rw [huvar] at hu
          exact hvarkey hu
        · intro e he
          rw [ha1app] at he
          rcases List.mem_append.mp he with h1 | h1
          · exact hA.2 e h1
          · simp at h1
            rw [h1]
            exact hvar
      have hH1 : HInv p (writeCur { s with assign := aSet s.assign var val }
          (domSet (curDom s) var [val])) := by
        constructor
        · simpa [writeCur, heapSet_length] using hH.1
        · intro d hd
          simp only [writeCur] at hd
          rcases mem_heapSet hd with h1 | h1
          · exact hH.2 d h1
          · rw [h1, domKeys_domSet]
            exact hcurkeys
      have hW1 : WInv (curDom (writeCur { s with assign := aSet s.assign var val }
          (domSet (curDom s) var [val]))) (aSet s.assign var val) := by
        intro e he
        have hcur1 : curDom (writeCur { s with assign := aSet s.assign var val }
            (domSet (curDom s) var [val])) = domSet (curDom s) var [val] := by
          simp only [curDom, writeCur]
          exact heapGet_heapSet_self _ _ _ hH.1
        rw [hcur1, ha1app] at *
        rcases List.mem_append.mp he with h1 | h1
        · have hne : e.1 ≠ var := by
            intro hh
            exact hvarkey (hh ▸ List.mem_map_of_mem Prod.fst h1)
          rw [domGet_domSet_ne _ _ _ _ hne]
          exact hW e h1
        · simp at h1
          rw [h1]
          simp only
          rw [domGet_domSet_self _ _ _ (by rw [hcurkeys]; exact hvar)]
          simp
      rcases hbts : bt (writeCur { s with assign := aSet s.assign var val }
          (domSet (curDom s) var [val])) with _ | ⟨res2, s2⟩
      · rw [hbts] at hrun
        simp at hrun
      · rw [hbts] at hrun
        obtain ⟨hH2, hlen2, hcur2, hframe2, hnone2, hsome2⟩ :=
          hbt _ hH1 hA1 hW1 res2 s2 hbts
        have hs1cur : (writeCur { s with assign := aSet s.assign var val }
            (domSet (curDom s) var [val])).cur = s.cur := rfl
        have hs1len : (writeCur { s with assign := aSet s.assign var val }
            (domSet (curDom s) var [val])).heap.length = s.heap.length := by
          simp [writeCur, heapSet_length]
        have hs1get_ne : ∀ i, i ≠ s.cur →
            heapGet (writeCur { s with assign := aSet s.assign var val }
              (domSet (curDom s) var [val])).heap i = heapGet s.heap i := by
          intro i hi
          simp only [writeCur]
          exact heapGet_heapSet_ne _ _ _ _ hi
        have hs1get_cur : heapGet (writeCur { s with assign := aSet s.assign var val }
            (domSet (curDom s) var [val])).heap s.cur = domSet (curDom s) var [val] := by
          simp only [writeCur]
          exact heapGet_heapSet_self _ _ _ hH.1
        rcases res2 with _ | result
        · -- recursive call failed: undo and try the next candidate
          simp only [] at hrun
          obtain ⟨hs2assign, hs2dom⟩ := hnone2 rfl
          have hs2assign' : s2.assign = aSet s.assign var val := hs2assign
          have hs2dom' : ∀ e ∈ aSet s.assign var val,
              domGet (heapGet s2.heap s.cur) e.1
                = domGet (domSet (curDom s) var [val]) e.1 := by
            intro e he
            have h0 := hs2dom e he
            rw [hs1cur, hs1get_cur] at h0
            exact h0
          rw [hs2assign', ha1del] at hrun
          have hdomcp : ∀ e ∈ s.assign,
              domGet (heapGet s2.heap copyIdx) e.1 = domGet (heapGet s.heap copyIdx) e.1 := by
            intro e he
            by_cases hcc : copyIdx = s.cur
            · rw [hcc]
              have h1 := hs2dom' e (ha1sub e he)
              have hne : e.1 ≠ var := by
                intro hh
                exact hvarkey (hh ▸ List.mem_map_of_mem Prod.fst he)
              rw [h1, domGet_domSet_ne _ _ _ _ hne]
              rfl
            · rw [hframe2 copyIdx (by rw [hs1len]; exact hcp) (by rw [hs1cur]; exact hcc)]
              rw [hs1get_ne copyIdx hcc]
          have hWs4 : WInv (heapGet s2.heap copyIdx) s.assign := by
            intro e he
            rw [hdomcp e he]
            exact hWcp e he
          have hH4 : HInv p { s2 with assign := s.assign, cur := copyIdx } := by
            refine ⟨?_, fun d hd => hH2.2 d hd⟩
            show copyIdx < s2.heap.length
            rw [hs1len] at hlen2
            omega
          obtain ⟨ihH, ihlen, ihcur, ihframe, ihnone, ihsome⟩ :=
            ih { s2 with assign := s.assign, cur := copyIdx } hH4 hA hWs4 hvarnone
              (by show copyIdx < s2.heap.length; rw [hs1len] at hlen2; omega) hWs4 res s' hrun
          rw [hs1len] at hlen2
          refine ⟨ihH, by simp only at ihlen; omega, ?_, ?_, ?_, ?_⟩
          · rcases ihcur with h | h | h
            · exact Or.inr (Or.inl h)
            · exact Or.inr (Or.inl h)
            · simp only at h
              right; right; omega
          · intro i hi hics hicp
            have h1 := ihframe i (by simp only; omega) (by show i ≠ copyIdx; exact hicp) hicp
            simp only at h1
            rw [h1, hframe2 i (by rw [hs1len]; exact hi) (by rw [hs1cur]; exact hics),
              hs1get_ne i hics]
          · intro hresnone
            obtain ⟨ihassign, ihdomcur, ihdomcp⟩ := ihnone hresnone
            simp only at ihassign ihdomcur ihdomcp
            refine ⟨ihassign, ?_, ?_⟩
            · intro e he
              by_cases hcc : copyIdx = s.cur
              · rw [← hcc]
                rw [ihdomcp e he, hdomcp e he]
              · have h1 := ihframe s.cur (by simp only; have := hH.1; omega)
                  (by show s.cur ≠ copyIdx; exact fun h => hcc h.symm)
                  (fun h => hcc h.symm)
                simp only at h1
                rw [h1]
                have h2 := hs2dom' e (ha1sub e he)
                have hne : e.1 ≠ var := by
                  intro hh
                  exact hvarkey (hh ▸ List.mem_map_of_mem Prod.fst he)
                rw [h2, domGet_domSet_ne _ _ _ _ hne]
                rfl
            · intro e he
              rw [ihdomcp e he, hdomcp e he]
          · intro r hr
            obtain ⟨ihassign, ihsub, ihA, ihcomp, ihcons, ihW⟩ := ihsome r hr
            exact ⟨ihassign, ihsub, ihA, ihcomp, ihcons, ihW⟩
        · -- recursive call succeeded: run ac3 on the neighbor arcs
          simp only [] at hrun
          obtain ⟨hs2assign, hsub1, hAr, hcompR, hconsR', hWr⟩ := hsome2 result rfl
          have hconsR : consistentB p result = true := by
            rcases hconsR' with h | h
            · exact h
            · rw [h]
              exact hcons
          have hresne : ¬(result = []) := by
            have hget : aGet result var = some val :=
              hsub1 var val (aGet_aSet_self s.assign var val)
            intro hnil
            rw [hnil] at hget
            simp [aGet, List.find?] at hget
          rw [if_neg hresne] at hrun
          have hkeys2 : domKeys (curDom s2) = p.vars := hH2.2 _ (heapGet_mem hH2.1)
          have hok2 : ArcsOK p ((p.neighbors var).map (fun o => (o, var))) := by
            intro e he'
            rcases List.mem_map.mp he' with ⟨o, ho, rfl⟩
            exact ⟨neighbors_subset ho, neighbors_symm hvar ho⟩
          obtain ⟨hraT, hraKeys, hraW⟩ :=
            ac3Run_supported p hcompR hconsR (curDom s2) _ hkeys2 hok2 hWr
          rw [if_pos hraT] at hrun
          simp only [Option.some.injEq, Prod.mk.injEq] at hrun
          obtain ⟨hres, hs'⟩ := hrun
          subst hres
          subst hs'
          have hs2cur : s2.cur < s2.heap.length := hH2.1
          refine ⟨?_, ?_, ?_, ?_, ?_, ?_⟩
          · refine ⟨?_, ?_⟩
            · show s2.cur < (heapSet s2.heap s2.cur _).length
              rw [heapSet_length]
              exact hs2cur
            · intro d hd
              simp only [writeCur] at hd
              rcases mem_heapSet hd with h1 | h1
              · exact hH2.2 d h1
              · rw [h1]
                exact hraKeys
          · show s.heap.length ≤ (heapSet s2.heap s2.cur (ac3Run p (curDom s2)
                ((p.neighbors var).map (fun o => (o, var)))).2).length
            rw [heapSet_length]
            rw [hs1len] at hlen2
            omega
          · show (writeCur s2 _).cur = s.cur ∨ _ ∨ _
            rcases hcur2 with h | h
            · rw [hs1cur] at h
              exact Or.inl h
            · rw [hs1len] at h
              right; right
              exact h
          · intro i hi hics hicp
            have hine : i ≠ s2.cur := by
              rcases hcur2 with h | h
              · rw [hs1cur] at h
                rw [h]
                exact hics
              · rw [hs1len] at h
                omega
            show heapGet (heapSet s2.heap s2.cur _) i = heapGet s.heap i
            rw [heapGet_heapSet_ne _ _ _ _ hine,
              hframe2 i (by rw [hs1len]; exact hi) (by rw [hs1cur]; exact hics),
              hs1get_ne i hics]
          · intro hcontra
            simp at hcontra
          · intro r hr
            have hsub1' : ∀ v w, aGet (aSet s.assign var val) v = some w
                → aGet result v = some w := hsub1
            have hs2assign' : s2.assign = result := hs2assign
            have hrr : result = r := by
              simpa using hr
            subst hrr
            refine ⟨?_, ?_, hAr, hcompR, hconsR, ?_⟩
            · show s2.assign = result
              exact hs2assign'
            · intro v w hvw
              apply hsub1'
              have hvne : v ≠ var := by
                intro hv
                rw [hv, hvarnone] at hvw
                exact absurd hvw (by simp)
              rw [aGet_aSet_ne s.assign var v val hvne]
              exact hvw
            · show WInv (curDom (writeCur s2 _)) result
              have : curDom (writeCur s2 (ac3Run p (curDom s2)
                  ((p.neighbors var).map (fun o => (o, var)))).2)
                  = (ac3Run p (curDom s2) ((p.neighbors var).map (fun o => (o, var)))).2 := by
                simp only [curDom, writeCur]
                exact heapGet_heapSet_self _ _ _ hs2cur
              rw [this]
              exact hraW
    · -- inconsistent candidate: undo and try the next one
      rw [if_neg hcons, ha1del] at hrun
      have hH5 : HInv p { s with assign := s.assign, cur := copyIdx } :=
        ⟨hcp, hH.2⟩
      obtain ⟨ihH, ihlen, ihcur, ihframe, ihnone, ihsome⟩ :=
        ih { s with assign := s.assign, cur := copyIdx } hH5 hA hWcp hvarnone hcp hWcp
          res s' hrun
      simp only at ihlen ihcur ihframe
      refine ⟨ihH, ihlen, ?_, ?_, ?_, ?_⟩
      · rcases ihcur with h | h | h
        · exact Or.inr (Or.inl h)
        · exact Or.inr (Or.inl h)
        · exact Or.inr (Or.inr h)
      · intro i hi hics hicp
        exact ihframe i hi hicp hicp
      · intro hresnone
        obtain ⟨ihassign, ihdomcur, ihdomcp⟩ := ihnone hresnone
        simp only at ihassign ihdomcur ihdomcp
        refine ⟨ihassign, ?_, ihdomcp⟩
        intro e he
        by_cases hcc : copyIdx = s.cur
        · rw [← hcc]
          exact ihdomcp e he
        · rw [ihframe s.cur hH.1 (fun h => hcc h.symm) (fun h => hcc h.symm)]
      · intro r hr
        exact ihsome r hr

/-- `backtrack` satisfies the contract `BtContract` at every fuel. -/
theorem backtrack_master (p : Puzzle) :
    ∀ fuel : Nat, BtContract p (backtrack p fuel) := by
  intro fuel
  induction fuel with
  | zero =>
    intro s _ _ _ res s' hrun
    simp [backtrack] at hrun
  | succ n ih =>
    intro s hH hA hW res s' hrun
    have hkeys : domKeys (curDom s) = p.vars := hH.2 _ (heapGet_mem hH.1)
    simp only [backtrack] at hrun
    by_cases hcomplete : assignment_complete (curDom s) s.assign = true
    · rw [if_pos hcomplete] at hrun
      simp only [Option.some.injEq, Prod.mk.injEq] at hrun
      obtain ⟨hres, hs⟩ := hrun
      subst hres
      subst hs
      refine ⟨hH, Nat.le_refl _, Or.inl rfl, fun i _ _ => rfl, ?_, ?_⟩
      · intro h
        simp at h
      · intro r hr
        have hra : s.assign = r := by
          simpa using hr
        subst hra
        refine ⟨rfl, fun v w h => h, hA, ?_, Or.inr rfl, hW⟩
        rw [assignment_complete, hkeys, List.all_eq_true] at hcomplete
        exact hcomplete
    · rw [if_neg hcomplete] at hrun
      rcases hsel : select_unassigned_variable p (curDom s) s.assign with _ | var
      · rw [hsel] at hrun
        simp only [Option.some.injEq, Prod.mk.injEq] at hrun
        obtain ⟨hres, hs⟩ := hrun
        subst hres
        subst hs
        refine ⟨hH, Nat.le_refl _, Or.inl rfl, fun i _ _ => rfl, ?_, ?_⟩
        · exact fun _ => ⟨rfl, fun e _ => rfl⟩
        · intro r hr
          exact absurd hr (by simp)
      · rw [hsel] at hrun
        simp only [] at hrun
        obtain ⟨hvarkeys, hvarnone⟩ := select_unassigned_some hsel
        have hvar : var ∈ p.vars := by
          rw [← hkeys]
          exact hvarkeys
        have hH1 : HInv p { s with heap := s.heap ++ [curDom s] } := by
          refine ⟨?_, ?_⟩
          · show s.cur < (s.heap ++ [curDom s]).length
            rw [List.length_append]
            have := hH.1
            omega
          · intro d hd
            rcases List.mem_append.mp hd with h1 | h1
            · exact hH.2 d h1
            · simp at h1
              rw [h1]
              exact hkeys
        have hcur1 : curDom { s with heap := s.heap ++ [curDom s] } = curDom s := by
          simp only [curDom]
          exact heapGet_append_lt _ _ _ hH.1
        have hW1 : WInv (curDom { s with heap := s.heap ++ [curDom s] }) s.assign := by
          rw [hcur1]
          exact hW
        have hcp : s.heap.length < ({ s with heap := s.heap ++ [curDom s] } : BState).heap.length := by
          simp
        have hWcp : WInv (heapGet ({ s with heap := s.heap ++ [curDom s] } : BState).heap
            s.heap.length) s.assign := by
          show WInv (heapGet (s.heap ++ [curDom s]) s.heap.length) s.assign
          rw [heapGet_append_self]
          exact hW
        obtain ⟨mH, mlen, mcur, mframe, mnone, msome⟩ :=
          tryVals_master p (backtrack p n) ih var hvar s.heap.length
            (order_domain_values p (curDom s) s.assign var)
            { s with heap := s.heap ++ [curDom s] } hH1 hA hW1 hvarnone hcp hWcp res s' hrun
        have hlen1 : ({ s with heap := s.heap ++ [curDom s] } : BState).heap.length
            = s.heap.length + 1 := by
          simp
        have hcu1 : ({ s with heap := s.heap ++ [curDom s] } : BState).cur = s.cur := rfl
        refine ⟨mH, ?_, ?_, ?_, ?_, ?_⟩
        · rw [hlen1] at mlen
          omega
        · rcases mcur with h | h | h
          · rw [hcu1] at h
            exact Or.inl h
          · rw [h]
            exact Or.inr (Nat.le_refl _)
          · rw [hlen1] at h
            right
            omega
        · intro i hi hics
          have h1 := mframe i (by rw [hlen1]; omega) (by rw [hcu1]; exact hics)
            (by omega)
          rw [h1]
          show heapGet (s.heap ++ [curDom s]) i = heapGet s.heap i
          exact heapGet_append_lt _ _ _ hi
        · intro hres
          obtain ⟨ma, mdomcur, mdomcp⟩ := mnone hres
          refine ⟨ma, ?_⟩
          intro e he
          have h1 := mdomcur e he
          rw [hcu1] at h1
          rw [h1]
          show domGet (heapGet (s.heap ++ [curDom s]) s.cur) e.1
            = domGet (heapGet s.heap s.cur) e.1
          rw [heapGet_append_lt _ _ _ hH.1]
        · intro r hr
          obtain ⟨ma, msub, mA, mcomp, mcons, mW⟩ := msome r hr
          exact ⟨ma, msub, mA, mcomp, Or.inl mcons, mW⟩

theorem initDomains_keys (p : Puzzle) (dict : List Word) :
    domKeys (initDomains p dict) = p.vars := by
  rw [domKeys, initDomains, List.map_map]
  exact List.map_id p.vars

theorem enforce_keys (d : Domains) :
    domKeys (enforce_node_consistency d) = domKeys d := by
  rw [domKeys, enforce_node_consistency, List.map_map]
  rfl

theorem ac3Fuel_keys (p : Puzzle) :
    ∀ (fuel : Nat) (d : Domains) (arcs : List (Variable × Variable)) {b : Bool} {d' : Domains},
      ac3Fuel p fuel d arcs = some (b, d') → domKeys d' = domKeys d := by
  intro fuel
  induction fuel with
  | zero =>
    intro d arcs b d' hrun
    simp [ac3Fuel] at hrun
  | succ n ih =>
    intro d arcs b d' hrun
    rcases arcs with _ | ⟨⟨x, y⟩, rest⟩
    · simp only [ac3Fuel, Option.some.injEq, Prod.mk.injEq] at hrun
      rw [← hrun.2]
    · simp only [ac3Fuel] at hrun
      by_cases hr : (revise d x y).1 = true
      · rw [if_pos hr] at hrun
        by_cases he : domGet (revise d x y).2 x = []
        · rw [if_pos he] at hrun
          simp only [Option.some.injEq, Prod.mk.injEq] at hrun
          rw [← hrun.2, revise_keys]
        · rw [if_neg he] at hrun
          rw [ih _ _ hrun, revise_keys]
      · rw [if_neg hr] at hrun
        have hfix : (revise d x y).2 = d := revise_false_fix (by simpa using hr)
        rw [hfix] at hrun
        exact ih _ _ hrun

theorem ac3Run_keys (p : Puzzle) (d : Domains) (arcs : List (Variable × Variable)) :
    domKeys (ac3Run p d arcs).2 = domKeys d := by
  have h := ac3Fuel_run_eq p d arcs
  exact ac3Fuel_keys p (ac3Bound p d arcs) d arcs (by rw [h])

theorem count_le_one_of_nodup {α : Type} [BEq α] [LawfulBEq α] {l : List α}
    (h : l.Nodup) (x : α) : l.count x ≤ 1 := by
  induction l with
  | nil => simp
  | cons a as ih =>
    rw [List.nodup_cons] at h
    rw [List.count_cons]
    by_cases hax : a = x
    · have h0 : as.count x = 0 := by
        apply List.count_eq_zero_of_not_mem
        rw [← hax]
        exact h.1
      simp [h0, hax]
    · have hbeq : (a == x) = false := by
        simpa using hax
      rw [hbeq]
      simpa using ih h.2

theorem nodup_of_count_eq_one {α : Type} [BEq α] [LawfulBEq α] :
    ∀ {l : List α}, (∀ x ∈ l, l.count x = 1) → l.Nodup := by
  intro l
  induction l with
  | nil => intro _; exact List.nodup_nil
  | cons a as ih =>
    intro h
    have ha : (a :: as).count a = 1 := h a (by simp)
    rw [List.count_cons_self] at ha
    have ha0 : as.count a = 0 := by omega
    have hanot : a ∉ as := List.not_mem_of_count_eq_zero ha0
    refine List.nodup_cons.mpr ⟨hanot, ih ?_⟩
    intro x hx
    have hx1 := h x (by simp [hx])
    rw [List.count_cons] at hx1
    have hbeq : (a == x) = false := by
      simp only [beq_eq_false_iff_ne, ne_eq]
      intro hax
      rw [hax] at hanot
      exact hanot hx
    rw [hbeq] at hx1
    simpa using hx1

theorem consistent_length {p : Puzzle} {r : Assignment} (hcons : consistentB p r = true)
    {e : Variable × Word} (he : e ∈ r) : e.2.length = e.1.length := by
  rw [consistentB_eq_all, List.all_eq_true] at hcons
  have h := hcons e he
  rw [entryOK, Bool.and_eq_true, Bool.and_eq_true] at h
  exact of_decide_eq_true h.1.1

theorem consistent_count {p : Puzzle} {r : Assignment} (hcons : consistentB p r = true)
    {e : Variable × Word} (he : e ∈ r) : (r.map Prod.snd).count e.2 = 1 := by
  rw [consistentB_eq_all, List.all_eq_true] at hcons
  have h := hcons e he
  rw [entryOK, Bool.and_eq_true, Bool.and_eq_true] at h
  exact of_decide_eq_true h.1.2

theorem consistent_values_nodup {p : Puzzle} {r : Assignment}
    (hcons : consistentB p r = true) : (r.map Prod.snd).Nodup := by
  have h : ∀ w ∈ r.map Prod.snd, (r.map Prod.snd).count w = 1 := by
    intro w hw
    rcases List.mem_map.mp hw with ⟨e, he, hew⟩
    rw [← hew]
    exact consistent_count hcons he
  exact nodup_of_count_eq_one h

/-- C1: whenever `solve` (node consistency, full propagation, then
`backtrack` from the empty assignment) returns an assignment rather than
`None`, that assignment binds every variable of the puzzle exactly once and
only binds puzzle variables, every bound word has its variable's length, all
bound words are pairwise distinct, and assigned neighbors agree at every
shared cell. -/
theorem c1_solution_validity (p : Puzzle) (dict : List Word) (fuel : Nat) (r : Assignment)
    (hu : UniqueOverlaps p)
    (hsolve : solve p dict fuel = some (some r)) :
    (∀ v ∈ p.vars, (r.map Prod.fst).count v = 1) ∧
    (∀ e ∈ r, e.1 ∈ p.vars) ∧
    (∀ e ∈ r, e.2.length = e.1.length) ∧
    (r.map Prod.snd).Nodup ∧
    (∀ e ∈ r, ∀ f ∈ r, f.1 ∈ p.neighbors e.1 →
      ∀ c ∈ sharedCells e.1 f.1,
        e.2.get? (cellIndex e.1.cells c) = f.2.get? (cellIndex f.1.cells c)) := by
  rw [solve] at hsolve
  rcases hbe : backtrackEntry p
      (ac3Full p (enforce_node_consistency (initDomains p dict))).2
      [] fuel with _ | ⟨res, s'⟩
  · rw [hbe] at hsolve
    simp at hsolve
  · rw [hbe] at hsolve
    simp only [Option.map_some', Option.some.injEq] at hsolve
    have hres : res = some r := hsolve
    subst hres
    have hkeys2 : domKeys (ac3Full p (enforce_node_consistency (initDomains p dict))).2
        = p.vars := by
      rw [show ac3Full p (enforce_node_consistency (initDomains p dict))
          = ac3Run p (enforce_node_consistency (initDomains p dict))
            (allArcs p (enforce_node_consistency (initDomains p dict))) from rfl,
        ac3Run_keys, enforce_keys, initDomains_keys]
    have hH0 : HInv p
        { heap := [(ac3Full p (enforce_node_consistency (initDomains p dict))).2],
          cur := 0, assign := [] } := by
      refine ⟨by simp, ?_⟩
      intro d hd
      simp at hd
      rw [hd]
      exact hkeys2
    have hA0 : AInv p ([] : Assignment) := ⟨List.nodup_nil, by simp⟩
    have hW0 : WInv
        (curDom
          { heap := [(ac3Full p (enforce_node_consistency (initDomains p dict))).2],
            cur := 0, assign := [] })
        ([] : Assignment) := by
      intro e he
      simp at he
    obtain ⟨-, -, -, -, -, hsome⟩ :=
      backtrack_master p fuel _ hH0 hA0 hW0 (some r) s' hbe
    obtain ⟨-, -, hAr, hcomp, hcons', -⟩ := hsome r rfl
    have hcons : consistentB p r = true := by
      rcases hcons' with h | h
      · exact h
      · rw [h]
        rfl
    refine ⟨?_, hAr.2, fun e he => consistent_length hcons he,
      consistent_values_nodup hcons, ?_⟩
    · intro v hv
      have hsome := hcomp v hv
      rcases hget : aGet r v with _ | w
      · rw [hget] at hsome
        simp at hsome
      have hmem : v ∈ r.map Prod.fst := by
        exact List.mem_map_of_mem Prod.fst (aGet_mem hget)
      have hge : 1 ≤ (r.map Prod.fst).count v := by
        rw [Nat.succ_le_iff]
        exact List.count_pos_iff.mpr hmem
      have hle := count_le_one_of_nodup hAr.1 v
      omega
    · intro e he f hf hnbr c hc
      have hget : aGet r f.1 = some f.2 := by
        apply mem_aGet hAr.1
        simpa using hf
      have hov := consistent_overlap hcons (show (e.1, e.2) ∈ r by simpa using he) hnbr hget
      have hne : e.1 ≠ f.1 := Ne.symm (neighbors_ne hnbr)
      have hlen1 : (sharedCells e.1 f.1).length ≤ 1 :=
        hu e.1 (hAr.2 e he) f.1 (neighbors_subset hnbr) hne
      have hsing : sharedCells e.1 f.1 = [c] := eq_singleton_of_length_le_one hlen1 hc
      rw [nbrOverlapOK_of_cons hsing] at hov
      exact of_decide_eq_true hov

/-- C9 (amended): for every partial assignment whose keys are distinct
puzzle variables and whose every bound word is still present in that
variable's domain (the spec's stated search invariant), a `backtrack` call
that returns `None` leaves the assignment exactly as it was. -/
theorem c9_amended (p : Puzzle) (d : Domains) (a : Assignment) (fuel : Nat)
    (hkeys : domKeys d = p.vars)
    (hA : AInv p a)
    (hW : WInv d a)
    {s' : BState}
    (hrun : backtrackEntry p d a fuel = some (none, s')) :
    s'.assign = a := by
  have hH0 : HInv p { heap := [d], cur := 0, assign := a } := by
    refine ⟨by simp, ?_⟩
    intro d0 hd0
    simp at hd0
    rw [hd0]
    exact hkeys
  have hW0 : WInv (curDom { heap := [d], cur := 0, assign := a }) a := hW
  obtain ⟨-, -, -, -, hnone, -⟩ :=
    backtrack_master p fuel _ hH0 hA hW0 none s' hrun
  exact (hnone rfl).1

/-- The spec's one-variable scenario: a length-3 slot. -/
def catVar : Variable := ⟨[(0,0),(0,1),(0,2)]⟩

/-- The one-variable puzzle. -/
def catPuzzle : Puzzle := ⟨[catVar]⟩

/-- The dictionary `{"cat", "dog", "ate"}`. -/
def catDict : List Word := [['c','a','t'], ['d','o','g'], ['a','t','e']]

/-- The assignment `solve` produces on the one-variable scenario. -/
def catSol : Assignment := [(catVar, ['c','a','t'])]

/-- C1 witness: the spec's one-variable scenario, solved. -/
theorem c1_solution_validity_witness :
    UniqueOverlaps catPuzzle ∧
    ((∀ v ∈ catPuzzle.vars, (catSol.map Prod.fst).count v = 1) ∧
      (∀ e ∈ catSol, e.1 ∈ catPuzzle.vars) ∧
      (∀ e ∈ catSol, e.2.length = e.1.length) ∧
      (catSol.map Prod.snd).Nodup ∧
      (∀ e ∈ catSol, ∀ f ∈ catSol, f.1 ∈ catPuzzle.neighbors e.1 →
        ∀ c ∈ sharedCells e.1 f.1,
          e.2.get? (cellIndex e.1.cells c) = f.2.get? (cellIndex f.1.cells c))) :=
  ⟨by decide,
    c1_solution_validity catPuzzle catDict 5 catSol (by decide) (by decide)⟩

/-- A slot with an empty domain, for the C9 witness. -/
def soloVar : Variable := ⟨[(0,0)]⟩

/-- The one-slot puzzle. -/
def soloPuzzle : Puzzle := ⟨[soloVar]⟩

/-- Its store, with no candidate word. -/
def soloDoms : Domains := [(soloVar, [])]

/-- C9 witness: a failed search from the empty assignment leaves it empty. -/
theorem c9_amended_witness :
    AInv soloPuzzle [] ∧ WInv soloDoms [] ∧
      (BState.mk [soloDoms, soloDoms] 0 []).assign = ([] : Assignment) :=
  ⟨by decide, by decide,
    c9_amended soloPuzzle soloDoms [] 5 (by decide) (by decide) (by decide)
      (show backtrackEntry soloPuzzle soloDoms [] 5
          = some (none, BState.mk [soloDoms, soloDoms] 0 []) by decide)⟩

/-! ## Snapshot restore in `backtrack` is broken (claim C2)

`backtrack` takes `domains_copy = copy.deepcopy(self.domains)` once before
the candidate loop, and on failure executes `self.domains = domains_copy` —
an attribute rebind.  After the first failed candidate `self.domains` *is*
the snapshot object, so the writes of later candidates
(`self.domains[var] = {val}` and the writes of deeper recursive calls)
mutate the snapshot itself, and the subsequent "restores" rebind to the
already-clobbered object. -/

/-- A first across slot `(0,0)-(0,1)`. -/
def pairX : Variable := ⟨[(0,0),(0,1)]⟩

/-- A down slot `(0,0)-(1,0)`, overlapping `pairX` at `(0,0)`. -/
def pairY : Variable := ⟨[(0,0),(1,0)]⟩

/-- The two-slot puzzle used for the C2 counterexample. -/
def pairPuzzle : Puzzle := ⟨[pairX, pairY]⟩

/-- Domains with no compatible pair: `x`-words start with `a`/`b`, `y`-words
with `c`, and the overlap requires equal first letters. -/
def pairDoms : Domains := [(pairX, [['a','b'], ['b','b']]), (pairY, [['c','a'], ['c','b']])]

/-- C2 counterexample: on this unsolvable two-variable puzzle the search
fails (returns `None` — the result is `some none`, not fuel exhaustion), yet
the store `self.domains` ends at `{x: {"bb"}, y: {"ca","cb"}}`, not at the
pre-loop snapshot `pairDoms` (where `x` had both words): the second failed
candidate's tentative write survived its own "undo". -/
theorem c2_counterexample :
    (backtrackEntry pairPuzzle pairDoms [] 10).map (fun r => (r.1, curDom r.2))
        = some (none, [(pairX, [['b','b']]), (pairY, [['c','a'], ['c','b']])]) ∧
      [(pairX, [['b','b']]), (pairY, [['c','a'], ['c','b']])] ≠ pairDoms := by
  decide

/-! ## The search is incomplete (claim C3)

Because failed branches clobber the domain snapshot (see C2), a later
sibling candidate can see an incorrectly pruned domain and miss an existing
solution. -/

/-- The validity predicate of the claim: a total assignment of dictionary
words of the right lengths, pairwise distinct, agreeing at every shared
cell of every neighboring pair. -/
def validSolutionB (p : Puzzle) (dict : List Word) (a : Assignment) : Bool :=
  p.vars.all (fun v => (aGet a v).isSome) &&
  decide ((a.map Prod.fst).Nodup) &&
  a.all (fun e => decide (e.1 ∈ p.vars)) &&
  a.all (fun e => decide (e.2 ∈ dict)) &&
  a.all (fun e => decide (e.2.length = e.1.length)) &&
  decide ((a.map Prod.snd).Nodup) &&
  a.all (fun e => a.all (fun f =>
    !(decide (f.1 ∈ p.neighbors e.1)) ||
      (sharedCells e.1 f.1).all (fun c =>
        agreeAt (cellIndex e.1.cells c) (cellIndex f.1.cells c) e.2 f.2)))

/-- Across slot of length 2 at row 0. -/
def gapX : Variable := ⟨[(0,0),(0,1)]⟩

/-- Down slot of length 3 overlapping `gapX` at `(0,0)`. -/
def gapY : Variable := ⟨[(0,0),(1,0),(2,0)]⟩

/-- Length-3 slot overlapping `gapX` at `(0,1)` and `gapY` at `(2,0)`. -/
def gapZ : Variable := ⟨[(0,1),(1,1),(2,0)]⟩

/-- The three-slot puzzle used for the C3 counterexample. -/
def gapPuzzle : Puzzle := ⟨[gapX, gapY, gapZ]⟩

/-- A dictionary for which `(tu, tae, ube)` solves `gapPuzzle`, but the
search tries `pq` and `rs` for `gapX` first; the `rs` branch writes
`domains[gapY] = {"rqe"}` into the (aliased) snapshot before failing, so the
`tu` branch only ever tries `rqe` for `gapY` and reports no solution. -/
def gapDict : List Word :=
  [['p','q'], ['r','s'], ['t','u'],
   ['p','m','a'], ['r','q','e'], ['t','a','e'],
   ['q','f','e'], ['u','b','e'], ['s','f','a']]

/-- The solution the solver misses. -/
def gapSol : Assignment := [(gapX, ['t','u']), (gapY, ['t','a','e']), (gapZ, ['u','b','e'])]

/-- C3 counterexample: `gapSol` is a complete valid solution of
`gapPuzzle`/`gapDict`, yet `solve` terminates (the result is `some none`,
not fuel exhaustion) reporting no solution. -/
theorem c3_counterexample :
    validSolutionB gapPuzzle gapDict gapSol = true ∧
      solve gapPuzzle gapDict 12 = some none := by
  decide

/-! ## Failed searches can leak tentative bindings (claim C9)

When the initial partial assignment maps a variable to a word that is not in
that variable's current domain, a deep success can be vetoed by the
post-recursion `ac3` call (the pre-assigned variable's domain gets emptied),
and the `del assignment[var]` undo removes only this level's variable — the
deeper bindings of the vetoed branch stay in the dict. -/

/-- Down slot overlapping `chainX` at `(0,0)` only. -/
def chainZ : Variable := ⟨[(0,0),(1,0)]⟩

/-- Across slot between `chainZ` and `chainY`. -/
def chainX : Variable := ⟨[(0,0),(0,1)]⟩

/-- Down slot overlapping `chainX` at `(0,1)` only. -/
def chainY : Variable := ⟨[(0,1),(1,1)]⟩

/-- The chain puzzle `z — x — y` used for the C9 counterexample. -/
def chainPuzzle : Puzzle := ⟨[chainZ, chainX, chainY]⟩

/-- Domains in which `z`'s domain `{"bb"}` does not contain the word `"ab"`
pre-assigned to `z` (and `"bb"` disagrees with `x`'s only word). -/
def chainDoms : Domains := [(chainZ, [['b','b']]), (chainX, [['a','c']]), (chainY, [['c','d']])]

/-- The initial partial assignment `{z: "ab"}`. -/
def chainAssign : Assignment := [(chainZ, ['a','b'])]

/-- C9 counterexample: `backtrack` on `chainAssign` returns `None` (the
result is `some none`, not fuel exhaustion), but the assignment afterwards is
`{z: "ab", y: "cd"}` — the tentative binding of `y`, added during the failed
search, was never removed. -/
theorem c9_counterexample :
    (backtrackEntry chainPuzzle chainDoms chainAssign 10).map (fun r => (r.1, r.2.assign))
        = some (none, [(chainZ, ['a','b']), (chainY, ['c','d'])]) ∧
      [(chainZ, ['a','b']), (chainY, ['c','d'])] ≠ chainAssign := by
  decide

end CrosswordCSP
